import Mathlib

/-!
Verification of the VUNA-Calc calculator core (src/assets/js/script.js).

The development shallowly embeds the script's functions over `List Char` /
`String` and exact rationals (`ℚ`).  JavaScript numbers are IEEE doubles;
they are modelled here by exact rationals, which agrees with the script on
every value considered in the theorems below (small decimal literals and
results that the script itself rounds to 10 decimal places).  Rational
arithmetic is implemented through `Rat.divInt` (numerator/denominator
arithmetic) so that every definition evaluates inside the kernel.
-/

set_option maxHeartbeats 1000000

/-- Is `c` one of the characters 0-9? -/
def isDigitC (c : Char) : Bool := '0' ≤ c && c ≤ '9'

/-- Numeric value of a digit character. -/
def digitVal (c : Char) : Nat := c.toNat - '0'.toNat

/-- The digit character for `d` (meaningful for `d < 10`). -/
def digitChar (d : Nat) : Char := Char.ofNat (48 + d)

/-- The characters kept by the sanitizing regex replace
`expr.replace(/[^0-9+\-*\/.()]/g, "")` (script.js line 100). -/
def isAllowedChar (c : Char) : Bool :=
  isDigitC c || c = '+' || c = '-' || c = '*' || c = '/' || c = '.' || c = '(' || c = ')'

/-- The sanitizing pass of `evaluateExpression` (script.js line 100):
every character outside `0-9 + - * / . ( )` is removed. -/
def sanitizeL (s : List Char) : List Char := s.filter isAllowedChar

/-- Does `pat` occur as an initial segment of `s`? (helper for `hasSub`). -/
def matchesAt : List Char → List Char → Bool
  | [], _ => true
  | _ :: _, [] => false
  | p :: ps, c :: cs => p = c && matchesAt ps cs

/-- Model of JavaScript `String.prototype.includes`: does `pat` occur as a
contiguous substring of `s`? (script.js line 95 uses `expr.includes("/0")`). -/
def hasSub : List Char → List Char → Bool
  | [], pat => matchesAt pat []
  | c :: cs, pat => matchesAt pat (c :: cs) || hasSub cs pat

/-- The pattern of the division-by-zero heuristic: the two characters `/0`. -/
def divPat : List Char := ['/', '0']

/-- Maximal run of decimal digits at the front of `s`, returned as digit
values together with the rest of the input. -/
def lexDigits : List Char → List Nat × List Char
  | [] => ([], [])
  | c :: cs =>
    if isDigitC c then
      let p := lexDigits cs
      (digitVal c :: p.1, p.2)
    else ([], c :: cs)

/-- The natural number denoted by a big-endian list of digits. -/
def digitsToNat (ds : List Nat) : Nat := ds.foldl (fun a d => 10 * a + d) 0

/-- Little-endian decimal digits of `n`, with explicit fuel (the fuel `n`
itself always suffices).  `natDigitsRev f 0 = []`. -/
def natDigitsRev : Nat → Nat → List Nat
  | 0, _ => []
  | f + 1, n => if n = 0 then [] else n % 10 :: natDigitsRev f (n / 10)

/-- Big-endian decimal digits of `n`; `[]` for `n = 0`. -/
def natDigitsCore (n : Nat) : List Nat := (natDigitsRev n n).reverse

/-- Big-endian decimal digits of `n` as printed (so `0` prints as `"0"`). -/
def litIntDigits (n : Nat) : List Nat := if n = 0 then [0] else natDigitsCore n

/-! ## Arithmetic expressions

`evaluateExpression` delegates generic evaluation to the JavaScript engine
via `new Function("return " + cleanExpr)()` (script.js line 104).  That
engine behaviour is not part of the repository; per the specification
(§4.1) it evaluates the sanitized arithmetic string with standard operator
precedence (multiplication/division before addition/subtraction,
left-to-right associativity, parenthetical grouping), with unary sign on
factors, returning `Infinity`/`NaN` for division by zero and throwing on
syntax errors.  `jsParse`/`aeval` below model exactly that fragment. -/

/-- Abstract syntax of the arithmetic expressions accepted by the engine.
A literal records the integer digits' value and the fractional digits. -/
inductive AExp where
  | lit (i : Nat) (frac : List Nat)
  | neg (a : AExp)
  | add (a b : AExp)
  | sub (a b : AExp)
  | mul (a b : AExp)
  | div (a b : AExp)
deriving DecidableEq

/-- Rational addition computed on numerators/denominators (kernel-reducible;
agrees with `+` on `ℚ`). -/
def qadd (a b : ℚ) : ℚ := Rat.divInt (a.num * b.den + b.num * a.den) (a.den * b.den)

/-- Rational subtraction computed on numerators/denominators. -/
def qsub (a b : ℚ) : ℚ := Rat.divInt (a.num * b.den - b.num * a.den) (a.den * b.den)

/-- Rational multiplication computed on numerators/denominators. -/
def qmul (a b : ℚ) : ℚ := Rat.divInt (a.num * b.num) (a.den * b.den)

/-- Rational division computed on numerators/denominators (`qdiv a 0 = 0`;
the division-by-zero case is handled before this is called). -/
def qdiv (a b : ℚ) : ℚ := Rat.divInt (a.num * b.den) ((a.den : Int) * b.num)

/-- Rational negation computed on the numerator. -/
def qneg (a : ℚ) : ℚ := Rat.divInt (-a.num) a.den

/-- A JavaScript number: a finite value (modelled exactly as a rational),
one of the two infinities, or `NaN`. -/
inductive JSV where
  | fin (q : ℚ)
  | inf
  | ninf
  | nan
deriving DecidableEq

/-- JavaScript `+` on numbers. -/
def jsAdd : JSV → JSV → JSV
  | .fin a, .fin b => .fin (qadd a b)
  | .nan, _ => .nan
  | _, .nan => .nan
  | .inf, .ninf => .nan
  | .ninf, .inf => .nan
  | .inf, _ => .inf
  | _, .inf => .inf
  | .ninf, _ => .ninf
  | _, .ninf => .ninf

/-- JavaScript `-` on numbers. -/
def jsSub : JSV → JSV → JSV
  | .fin a, .fin b => .fin (qsub a b)
  | .nan, _ => .nan
  | _, .nan => .nan
  | .inf, .inf => .nan
  | .ninf, .ninf => .nan
  | .inf, _ => .inf
  | _, .inf => .ninf
  | .ninf, _ => .ninf
  | _, .ninf => .inf

/-- JavaScript `*` on numbers. -/
def jsMul : JSV → JSV → JSV
  | .fin a, .fin b => .fin (qmul a b)
  | .nan, _ => .nan
  | _, .nan => .nan
  | .inf, .inf => .inf
  | .inf, .ninf => .ninf
  | .ninf, .inf => .ninf
  | .ninf, .ninf => .inf
  | .inf, .fin b => if b.num = 0 then .nan else if 0 < b.num then .inf else .ninf
  | .fin a, .inf => if a.num = 0 then .nan else if 0 < a.num then .inf else .ninf
  | .ninf, .fin b => if b.num = 0 then .nan else if 0 < b.num then .ninf else .inf
  | .fin a, .ninf => if a.num = 0 then .nan else if 0 < a.num then .ninf else .inf

/-- JavaScript `/` on numbers (`x/0` is `±Infinity`, `0/0` is `NaN`). -/
def jsDiv : JSV → JSV → JSV
  | .fin a, .fin b =>
    if b.num = 0 then
      if a.num = 0 then .nan else if 0 < a.num then .inf else .ninf
    else .fin (qdiv a b)
  | .nan, _ => .nan
  | _, .nan => .nan
  | .inf, .inf => .nan
  | .inf, .ninf => .nan
  | .ninf, .inf => .nan
  | .ninf, .ninf => .nan
  | .inf, .fin b => if 0 ≤ b.num then .inf else .ninf
  | .ninf, .fin b => if 0 ≤ b.num then .ninf else .inf
  | .fin _, .inf => .fin 0
  | .fin _, .ninf => .fin 0

/-- JavaScript unary minus on numbers. -/
def jsNeg : JSV → JSV
  | .fin a => .fin (qneg a)
  | .inf => .ninf
  | .ninf => .inf
  | .nan => .nan

/-- The rational value of a numeric literal with integer value `i` and
fractional digits `f`. -/
def litValQ (i : Nat) (f : List Nat) : ℚ :=
  Rat.divInt ((i : Int) * 10 ^ f.length + digitsToNat f) (10 ^ f.length)

/-- Evaluation of an arithmetic expression with JavaScript number
semantics (modelled over exact rationals). -/
def aeval : AExp → JSV
  | .lit i f => .fin (litValQ i f)
  | .neg a => jsNeg (aeval a)
  | .add a b => jsAdd (aeval a) (aeval b)
  | .sub a b => jsSub (aeval a) (aeval b)
  | .mul a b => jsMul (aeval a) (aeval b)
  | .div a b => jsDiv (aeval a) (aeval b)

/-- Standard exact-arithmetic evaluation, following the specification's
words (§4.1): standard precedence semantics over decimal literals; a
division whose divisor evaluates to zero has no standard value. -/
def sval : AExp → Option ℚ
  | .lit i f => some (litValQ i f)
  | .neg a => (sval a).map qneg
  | .add a b => do pure (qadd (← sval a) (← sval b))
  | .sub a b => do pure (qsub (← sval a) (← sval b))
  | .mul a b => do pure (qmul (← sval a) (← sval b))
  | .div a b => do
    let x ← sval a
    let y ← sval b
    if y.num = 0 then none else pure (qdiv x y)

/-- Lex a JavaScript numeric literal (`digits`, `digits.digits`,
`digits.` or `.digits`) at the front of the input. -/
def lexNumber (s : List Char) : Option ((Nat × List Nat) × List Char) :=
  match lexDigits s with
  | ([], _) =>
    match s with
    | c :: r =>
      if c = '.' then
        match lexDigits r with
        | ([], _) => none
        | (fs, r2) => some ((0, fs), r2)
      else none
    | [] => none
  | (ds, r) =>
    match r with
    | c :: r2 =>
      if c = '.' then
        let p := lexDigits r2
        some ((digitsToNat ds, p.1), p.2)
      else some ((digitsToNat ds, []), c :: r2)
    | [] => some ((digitsToNat ds, []), [])

/-- Parser mode: which grammar production is being parsed.  `eloop`/`tloop`
carry the left-associated value accumulated so far. -/
inductive PMode where
  | expr
  | eloop (acc : AExp)
  | term
  | tloop (acc : AExp)
  | factor
  | prim

/-- Recursive-descent parser for the engine's arithmetic grammar:
`expr := term (('+'|'-') term)*`, `term := factor (('*'|'/') factor)*`,
`factor := ('+'|'-')? prim`, `prim := number | '(' expr ')'`.
Structurally recursive on `fuel`; one unit of fuel is consumed per
recursive call, so fuel linear in the input length always suffices. -/
def parseRun : Nat → PMode → List Char → Option (AExp × List Char)
  | 0, _, _ => none
  | f + 1, m, s =>
    match m with
    | .expr =>
      match parseRun f .term s with
      | some (a, r) => parseRun f (.eloop a) r
      | none => none
    | .eloop a =>
      match s with
      | c :: r =>
        if c = '+' then
          match parseRun f .term r with
          | some (b, r2) => parseRun f (.eloop (.add a b)) r2
          | none => none
        else if c = '-' then
          match parseRun f .term r with
          | some (b, r2) => parseRun f (.eloop (.sub a b)) r2
          | none => none
        else some (a, c :: r)
      | [] => some (a, [])
    | .term =>
      match parseRun f .factor s with
      | some (a, r) => parseRun f (.tloop a) r
      | none => none
    | .tloop a =>
      match s with
      | c :: r =>
        if c = '*' then
          match parseRun f .factor r with
          | some (b, r2) => parseRun f (.tloop (.mul a b)) r2
          | none => none
        else if c = '/' then
          match parseRun f .factor r with
          | some (b, r2) => parseRun f (.tloop (.div a b)) r2
          | none => none
        else some (a, c :: r)
      | [] => some (a, [])
    | .factor =>
      match s with
      | c :: r =>
        if c = '-' then
          match parseRun f .prim r with
          | some (a, r2) => some (.neg a, r2)
          | none => none
        else if c = '+' then parseRun f .prim r
        else parseRun f .prim (c :: r)
      | [] => parseRun f .prim []
    | .prim =>
      match s with
      | c :: r =>
        if c = '(' then
          match parseRun f .expr r with
          | some (a, r2) =>
            match r2 with
            | c2 :: r3 => if c2 = ')' then some (a, r3) else none
            | [] => none
          | none => none
        else
          match lexNumber (c :: r) with
          | some ((i, fr), r2) => some (.lit i fr, r2)
          | none => none
      | [] => none

/-- Parse a complete sanitized expression string; fails (like the engine's
`SyntaxError`, caught by the script) unless the whole input is consumed. -/
def jsParse (s : List Char) : Option AExp :=
  match parseRun (4 * s.length + 8) .expr s with
  | some (a, []) => some a
  | _ => none

/-- Round-half-away-from-zero of a rational, as an integer (the rounding
used by `Number.prototype.toFixed`). -/
def jsRoundHA (q : ℚ) : Int :=
  let r0 : Nat := (2 * q.num.natAbs + q.den) / (2 * q.den)
  if q.num < 0 then -(r0 : Int) else (r0 : Int)

/-- Rounding to 10 decimal places: model of
`parseFloat(result.toFixed(10))` (script.js line 105) on a finite value. -/
def round10Q (q : ℚ) : ℚ :=
  Rat.divInt (jsRoundHA (qmul q (Rat.divInt (10 ^ 10) 1))) (10 ^ 10)

/-- `parseFloat(result.toFixed(10))` on a JavaScript number:
`Infinity`, `-Infinity` and `NaN` round-trip through their string forms. -/
def round10JSV : JSV → JSV
  | .fin q => .fin (round10Q q)
  | .inf => .inf
  | .ninf => .ninf
  | .nan => .nan

/-- Result of `evaluateExpression`: the string `"Error"` or a number. -/
inductive EvalOut where
  | error
  | num (v : JSV)
deriving DecidableEq

/-- Embedding of `evaluateExpression` (script.js lines 93-109): the `/0`
substring check on the raw input, then sanitization, then generic
evaluation with rounding to 10 decimal places; an engine syntax error is
caught and becomes `"Error"`. -/
def evaluateExpression (expr : String) : EvalOut :=
  if hasSub expr.data divPat then .error
  else
    match jsParse (sanitizeL expr.data) with
    | some a => .num (round10JSV (aeval a))
    | none => .error

/-! ## Number to words (script.js lines 283-382)

`numberToWords` stringifies its numeric argument (`Math.abs(n).toString()`)
and splits it at the decimal point.  `decimalParts` below models that
split by exact long division: the integer part `⌊|q|⌋` and the digits of
the terminating decimal expansion of the fractional part — exactly the
digits `toString` prints when its rendering carries no exponent.
CAVEAT: JS `Number.prototype.toString` switches to exponential notation
for `0 < |x| < 10⁻⁶` (e.g. `(1e-7).toString() = "1e-7"`, which this
program then reads as integer part `1` with no fractional digits) and for
`|x| ≥ 10²¹`; that regime is NOT modelled here.  `decimalParts` is
therefore faithful only on non-exponential renderings, and the one
theorem that quantifies over it (`numberToWords_fractional_small`)
restricts its domain to `10⁻⁶ ≤ |q| < 1`; every concrete value it is
evaluated at elsewhere lies far inside the non-exponential regime. -/

/-- Long division: the decimal digits of `r / den` for `0 ≤ r < den`,
most significant first, stopping at remainder `0` (so no trailing zeros,
as `toString` prints none).  Fuel `den` suffices for every terminating
expansion: a denominator `2^a * 5^b` yields `max a b < den` digits. -/
def fracDigitsAux : Nat → Nat → Nat → List Nat
  | 0, _, _ => []
  | f + 1, r, den =>
    if r = 0 then []
    else 10 * r / den :: fracDigitsAux f (10 * r % den) den

/-- Integer part and printed fractional digits of `|q|`, modelling
`absN.toString().split(".")` (script.js line 350) on a non-exponential
rendering. -/
def decimalParts (q : ℚ) : Nat × List Nat :=
  (q.num.natAbs / q.den, fracDigitsAux q.den (q.num.natAbs % q.den) q.den)

/-- Is `c` the space character (the only whitespace these strings contain)? -/
def isSpaceC (c : Char) : Bool := c == ' '

/-- Model of `String.prototype.trim` on the space-only strings built here. -/
def trimChars (l : List Char) : List Char :=
  ((l.dropWhile isSpaceC).reverse.dropWhile isSpaceC).reverse

/-- Does `l` end in a non-space character? -/
def noTrailSpace (l : List Char) : Bool :=
  match l.getLast? with
  | some c => !isSpaceC c
  | none => false

/-- The `ones` table (script.js lines 291-302). -/
def onesTable : List String :=
  ["", "One", "Two", "Three", "Four", "Five", "Six", "Seven", "Eight", "Nine"]

/-- The `tens` table (script.js lines 303-314). -/
def tensTable : List String :=
  ["", "", "Twenty", "Thirty", "Forty", "Fifty", "Sixty", "Seventy", "Eighty", "Ninety"]

/-- The `teens` table (script.js lines 315-326). -/
def teensTable : List String :=
  ["Ten", "Eleven", "Twelve", "Thirteen", "Fourteen", "Fifteen", "Sixteen",
   "Seventeen", "Eighteen", "Nineteen"]

/-- The `scales` table (script.js line 327). -/
def scalesTable : List String := ["", "Thousand", "Million", "Billion", "Trillion"]

/-- `convertGroup` (script.js lines 329-346): words for a 0-999 group. -/
def convertGroupL (val : Nat) : List Char :=
  let s1 : List Char :=
    if 100 ≤ val then (onesTable.getD (val / 100) "").data ++ " Hundred ".data else []
  let v := if 100 ≤ val then val % 100 else val
  let s2 : List Char :=
    if 10 ≤ v && v ≤ 19 then (teensTable.getD (v - 10) "").data ++ [' ']
    else if 20 ≤ v then
      (tensTable.getD (v / 10) "").data ++
        (if v % 10 != 0 then '-' :: (onesTable.getD (v % 10) "").data else []) ++ [' ']
    else if 0 < v then (onesTable.getD v "").data ++ [' ']
    else []
  trimChars (s1 ++ s2)

/-- `scales[scaleIdx] ? " " + scales[scaleIdx] : ""` (script.js line 364):
an out-of-range or empty scale contributes nothing. -/
def scaleSuffix (idx : Nat) : List Char :=
  let s := scalesTable.getD idx ""
  if s = "" then [] else ' ' :: s.data

/-- The `while (integerPart > 0)` grouping loop (script.js lines 358-369),
fuel-indexed (fuel `ip` suffices since `ip` shrinks by a factor 1000). -/
def intChunksAux : Nat → Nat → Nat → List (List Char)
  | 0, _, _ => []
  | f + 1, ip, idx =>
    if ip = 0 then []
    else
      intChunksAux f (ip / 1000) (idx + 1) ++
        (if 0 < ip % 1000 then [convertGroupL (ip % 1000) ++ scaleSuffix idx] else [])

/-- `wordArr.join(", ")`. -/
def joinSep (sep : List Char) : List (List Char) → List Char
  | [] => []
  | [x] => x
  | x :: xs => x ++ sep ++ joinSep sep xs

/-- Word for one fractional digit (script.js line 377):
`digit === "0" ? "Zero" : ones[parseInt(digit)]`. -/
def digitWordL (d : Nat) : List Char :=
  if d = 0 then "Zero".data else (onesTable.getD d "").data

/-- The fractional-digit loop (script.js lines 374-379): `" " + word` per digit. -/
def fracWords (ds : List Nat) : List Char :=
  (ds.map (fun d => ' ' :: digitWordL d)).flatten

/-- `numberToWords` (script.js lines 283-382) on a number, over `List Char`.
The `num === "Error"` / `""` / `isNaN` guards concern string arguments and
are outside the numeric domain modelled here. -/
def numberToWordsL (q : ℚ) : List Char :=
  if q.num = 0 then "Zero".data
  else
    let signL : List Char := if q.num < 0 then "Negative ".data else []
    let parts := decimalParts q
    let wordArr := if parts.1 = 0 then ["Zero".data] else intChunksAux parts.1 parts.1 0
    let base := signL ++ trimChars (joinSep ", ".data wordArr)
    let res := if parts.2 = [] then base else base ++ " Point".data ++ fracWords parts.2
    trimChars res

/-- `numberToWords` as a `String`-valued function. -/
def numberToWords (q : ℚ) : String := ⟨numberToWordsL q⟩

/-- Model of `Number.prototype.toString` (engine behaviour, used at
script.js lines 80 and 219): sign, decimal integer digits, and the
fractional digits when present.  Exact on non-exponential renderings
(see the caveat at `decimalParts`); every value it is applied to in this
development lies in that regime. -/
def ratToStringL (q : ℚ) : List Char :=
  let parts := decimalParts q
  (if q.num < 0 then ['-'] else []) ++ (litIntDigits parts.1).map digitChar ++
    (if parts.2 = [] then [] else '.' :: parts.2.map digitChar)

/-- `Number.prototype.toString` as a `String`-valued function. -/
def ratToString (q : ℚ) : String := ⟨ratToStringL q⟩

/-! ## Expression to words (script.js lines 141-160) -/

/-- The sequential operator replacements (script.js lines 143-149).  None
of the inserted words contains an operator character, so the six
sequential global replaces coincide with one per-character map. -/
def opWordL (c : Char) : List Char :=
  match c with
  | '*' => " times ".data
  | '/' => " divided by ".data
  | '+' => " plus ".data
  | '-' => " minus ".data
  | '(' => "open bracket ".data
  | ')' => " close bracket".data
  | c => [c]

/-- All six operator replacements applied to the expression. -/
def opReplace (s : List Char) : List Char := (s.map opWordL).flatten

/-- The number replacement pass
`words.replace(/(\d+\.?\d*)/g, m => numberToWords(parseFloat(m)))`
(script.js lines 152-155), fuel-indexed (fuel `length + 1` suffices since
every step consumes at least one character). -/
def replaceNumbersF : Nat → List Char → List Char
  | 0, _ => []
  | f + 1, s =>
    match s with
    | [] => []
    | c :: cs =>
      if isDigitC c then
        let p := lexDigits (c :: cs)
        match p.2 with
        | '.' :: r2 =>
          let p2 := lexDigits r2
          numberToWordsL (litValQ (digitsToNat p.1) p2.1) ++ replaceNumbersF f p2.2
        | _ => numberToWordsL (litValQ (digitsToNat p.1) []) ++ replaceNumbersF f p.2
      else c :: replaceNumbersF f cs

/-- The number replacement pass over a whole string. -/
def replaceNumbers (s : List Char) : List Char := replaceNumbersF (s.length + 1) s

/-- `expressionToWords` (script.js lines 141-160). -/
def expressionToWords (expression : String) (result : ℚ) : String :=
  ⟨trimChars (replaceNumbers (opReplace expression.data) ++ " equals ".data ++
    numberToWordsL result)⟩

/-! ## History management (script.js lines 111-269)

The history is a list of records, newest first.  Durable storage
(`localStorage` under the key `"vuna_calc_history"`) is modelled by what
the stored string parses to: absent, a JSON value that is an array of
records (serialization is the identity on records), some other JSON value,
or an unparseable string (on which `JSON.parse` throws). -/

/-- `HistoryRecord` (script.js lines 119-124).  The timestamp
(`new Date().toISOString()`) is an opaque value supplied by the caller. -/
structure HistoryRecord where
  expression : String
  result : ℚ
  expressionWords : String
  timestamp : Nat
deriving DecidableEq

/-- The record built by `saveToHistory` (script.js lines 119-124). -/
def mkHistoryItem (expression : String) (result : ℚ) (t : Nat) : HistoryRecord :=
  { expression := expression, result := result,
    expressionWords := expressionToWords expression result, timestamp := t }

/-- `saveToHistory` (script.js lines 118-135) on the in-memory list:
`unshift` the new record, then `pop` once when the length exceeds 50. -/
def saveToHistory (expression : String) (result : ℚ) (t : Nat)
    (h : List HistoryRecord) : List HistoryRecord :=
  let h2 := mkHistoryItem expression result t :: h
  if 50 < h2.length then h2.dropLast else h2

/-- What a stored string parses to: a well-formed record array, some other
JSON value, or a `JSON.parse` failure. -/
inductive StoredVal where
  | absent
  | records (l : List HistoryRecord)
  | otherJson
  | unparseable
deriving DecidableEq

/-- The value of the `calculationHistory` variable: a record list, or the
non-array JSON value a malformed load assigned to it. -/
inductive HistVar where
  | records (l : List HistoryRecord)
  | nonRecords
deriving DecidableEq

/-- `loadHistoryFromStorage` (script.js lines 259-269): absent storage
leaves the variable unchanged (`if (stored)` is false); a parseable value
is assigned as-is, whatever its shape; a `JSON.parse` exception is caught
and resets the variable to `[]`. -/
def loadHistoryFromStorage (st : StoredVal) (cur : HistVar) : HistVar :=
  match st with
  | .absent => cur
  | .records l => .records l
  | .otherJson => .nonRecords
  | .unparseable => .records []

/-- The mutable state relevant to the history invariant: the in-memory
variable and the durable storage. -/
structure AppState where
  hist : HistVar
  storage : StoredVal
deriving DecidableEq

/-- The state at script load: `var calculationHistory = []` (line 7) and
nothing stored yet. -/
def initState : AppState := { hist := .records [], storage := .absent }

/-- The mutations the script performs on history state: the startup load
(lines 10-13), a successful calculation (lines 77, 126-133) with or
without the `saveHistoryToStorage` write succeeding (lines 245-254), and
`clearHistory` (lines 165-173) with or without the write succeeding. -/
inductive Step : AppState → AppState → Prop where
  | load (s : AppState) :
      Step s { hist := loadHistoryFromStorage s.storage s.hist, storage := s.storage }
  | calcSave (s : AppState) (l : List HistoryRecord) (e : String) (r : ℚ) (t : Nat)
      (h : s.hist = .records l) :
      Step s { hist := .records (saveToHistory e r t l),
               storage := .records (saveToHistory e r t l) }
  | calcSaveNoPersist (s : AppState) (l : List HistoryRecord) (e : String) (r : ℚ) (t : Nat)
      (h : s.hist = .records l) :
      Step s { hist := .records (saveToHistory e r t l), storage := s.storage }
  | clear (s : AppState) :
      Step s { hist := .records [], storage := .records [] }
  | clearNoPersist (s : AppState) :
      Step s { hist := .records [], storage := s.storage }

/-- History states reachable from script load through the script's own
mutations. -/
inductive Reachable : AppState → Prop where
  | init : Reachable initState
  | step {s s' : AppState} : Reachable s → Step s s' → Reachable s'

/-- The in-memory history variable, when it is a list, has at most 50 records. -/
def histBounded (h : HistVar) : Prop :=
  ∀ l, h = .records l → l.length ≤ 50

/-- The stored history, when it is a record array, has at most 50 records. -/
def storBounded (s : StoredVal) : Prop :=
  ∀ l, s = .records l → l.length ≤ 50

/-- The combined history-capacity invariant. -/
def appInv (s : AppState) : Prop := histBounded s.hist ∧ storBounded s.storage

/-- `loadFromHistory` (script.js lines 216-222): the state it touches. -/
structure CalcState where
  expr : String
  history : List HistoryRecord
deriving DecidableEq

/-- `loadFromHistory(index)` (script.js lines 216-222): an in-range index
replaces the expression with `item.result.toString()`; `undefined`
(out-of-range) leaves everything unchanged. -/
def loadFromHistory (index : Nat) (st : CalcState) : CalcState :=
  match st.history.get? index with
  | some item => { st with expr := ratToString item.result }
  | none => st

/-- `calculateResult` (script.js lines 65-87): empty expression is a
no-op; an `"Error"` result, `NaN` or a non-finite value replaces the
expression with `"Error"`; otherwise the calculation is saved to history
and the expression becomes `result.toString()`.  The `try`/`catch` cannot
fire: the evaluator is total.  (`updateResult` only touches the DOM.) -/
def calculateResult (t : Nat) (st : CalcState) : CalcState :=
  if st.expr.length = 0 then st
  else
    match evaluateExpression st.expr with
    | .error => { st with expr := "Error" }
    | .num v =>
      match v with
      | .fin q =>
        { expr := ratToString q, history := saveToHistory st.expr q t st.history }
      | _ => { st with expr := "Error" }

/-- The failure test of script.js line 73:
`result === "Error" || isNaN(result) || !isFinite(result)`. -/
def evalFails : EvalOut → Bool
  | .error => true
  | .num (.fin _) => false
  | .num _ => true

/-! ## Well-formed expression strings

"Well-formed expression" is made precise as the precedence-respecting
rendering of an expression tree: `pp 0 a` prints `a` with parentheses
exactly where grouping departs from standard precedence, so `2+3*4` and
`(2+3)*4` are the renderings of the two different trees. -/

/-- Wrap a printed expression in parentheses when required. -/
def wrapIf (b : Bool) (s : List Char) : List Char :=
  if b then '(' :: s ++ [')'] else s

/-- Print a numeric literal (canonical digits, fractional part if any). -/
def litChars (i : Nat) (f : List Nat) : List Char :=
  (litIntDigits i).map digitChar ++ (if f = [] then [] else '.' :: f.map digitChar)

/-- Precedence-aware printer; `p` is the ambient precedence level
(0 additive, 1 multiplicative, 2 factor, 3 primary). -/
def pp : Nat → AExp → List Char
  | p, .add a b => wrapIf (decide (0 < p)) (pp 0 a ++ '+' :: pp 1 b)
  | p, .sub a b => wrapIf (decide (0 < p)) (pp 0 a ++ '-' :: pp 1 b)
  | p, .mul a b => wrapIf (decide (1 < p)) (pp 1 a ++ '*' :: pp 2 b)
  | p, .div a b => wrapIf (decide (1 < p)) (pp 1 a ++ '/' :: pp 2 b)
  | p, .neg a => wrapIf (decide (2 < p)) ('-' :: pp 3 a)
  | _, .lit i f => litChars i f

/-- Trees whose rendering is a well-formed expression in the claim's sense:
built from decimal literals (digits below 10) with the four binary
operators; no unary sign. -/
def printOK : AExp → Bool
  | .lit _ f => f.all (fun d => d < 10)
  | .neg _ => false
  | .add a b => printOK a && printOK b
  | .sub a b => printOK a && printOK b
  | .mul a b => printOK a && printOK b
  | .div a b => printOK a && printOK b

/-- Node count of an expression tree. -/
def sizeA : AExp → Nat
  | .lit _ _ => 1
  | .neg a => sizeA a + 1
  | .add a b => sizeA a + sizeA b + 1
  | .sub a b => sizeA a + sizeA b + 1
  | .mul a b => sizeA a + sizeA b + 1
  | .div a b => sizeA a + sizeA b + 1

/-- Additive spine: leftmost non-additive head and the list of
`(isAdd, operand)` pairs applied left-to-right. -/
def eSpine : AExp → AExp × List (Bool × AExp)
  | .add a b => ((eSpine a).1, (eSpine a).2 ++ [(true, b)])
  | .sub a b => ((eSpine a).1, (eSpine a).2 ++ [(false, b)])
  | e => (e, [])

/-- Multiplicative spine: leftmost non-multiplicative head and the list of
`(isMul, operand)` pairs applied left-to-right. -/
def tSpine : AExp → AExp × List (Bool × AExp)
  | .mul a b => ((tSpine a).1, (tSpine a).2 ++ [(true, b)])
  | .div a b => ((tSpine a).1, (tSpine a).2 ++ [(false, b)])
  | e => (e, [])

/-- Is the top node additive? -/
def isAddSub : AExp → Bool
  | .add _ _ => true
  | .sub _ _ => true
  | _ => false

/-- Is the top node multiplicative? -/
def isMulDiv : AExp → Bool
  | .mul _ _ => true
  | .div _ _ => true
  | _ => false

/-- The operator character of an additive spine element. -/
def eOpChar (o : Bool) : Char := if o then '+' else '-'

/-- The operator character of a multiplicative spine element. -/
def tOpChar (o : Bool) : Char := if o then '*' else '/'

/-- Rebuild a tree from an additive spine. -/
def eFold (h : AExp) (ops : List (Bool × AExp)) : AExp :=
  ops.foldl (fun x p => if p.1 then .add x p.2 else .sub x p.2) h

/-- Rebuild a tree from a multiplicative spine. -/
def tFold (h : AExp) (ops : List (Bool × AExp)) : AExp :=
  ops.foldl (fun x p => if p.1 then .mul x p.2 else .div x p.2) h

/-- Printed form of an additive spine's operator/operand list. -/
def eOpsChars (ops : List (Bool × AExp)) : List Char :=
  (ops.map (fun p => eOpChar p.1 :: pp 1 p.2)).flatten

/-- Printed form of a multiplicative spine's operator/operand list. -/
def tOpsChars (ops : List (Bool × AExp)) : List Char :=
  (ops.map (fun p => tOpChar p.1 :: pp 2 p.2)).flatten

/-- Inputs on which the additive loop stops. -/
def stopE : List Char → Bool
  | [] => true
  | c :: _ => c = ')'

/-- Inputs on which the multiplicative loop stops. -/
def stopT : List Char → Bool
  | [] => true
  | c :: _ => c = ')' || c = '+' || c = '-'

/-- Inputs on which a factor's parse stops. -/
def stopF : List Char → Bool
  | [] => true
  | c :: _ => c = ')' || c = '+' || c = '-' || c = '*' || c = '/'

/-- Value of a little-endian digit list. -/
def ofLE : List Nat → Nat
  | [] => 0
  | d :: t => d + 10 * ofLE t

/-- Round-trip statement for additive expressions: the parser consumes the
printed form and returns the tree. -/
def EstmtP (a : AExp) : Prop :=
  ∀ rest fuel, stopE rest = true → 4 * (pp 0 a).length + 8 ≤ fuel →
    parseRun fuel .expr (pp 0 a ++ rest) = some (a, rest)

/-- Round-trip statement at the multiplicative level. -/
def TstmtP (a : AExp) : Prop :=
  ∀ rest fuel, stopT rest = true → 4 * (pp 1 a).length + 7 ≤ fuel →
    parseRun fuel .term (pp 1 a ++ rest) = some (a, rest)

/-- Round-trip statement at the factor level. -/
def FstmtP (a : AExp) : Prop :=
  ∀ rest fuel, stopF rest = true → 4 * (pp 2 a).length + 6 ≤ fuel →
    parseRun fuel .factor (pp 2 a ++ rest) = some (a, rest)

/-! # Theorems -/

theorem saveToHistory_le_50 (e : String) (r : ℚ) (t : Nat) (l : List HistoryRecord)
    (h : l.length ≤ 50) : (saveToHistory e r t l).length ≤ 50 := by
  unfold saveToHistory
  by_cases h50 : 50 < (mkHistoryItem e r t :: l).length
  · rw [if_pos h50]
    simp only [List.length_dropLast, List.length_cons]
    omega
  · rw [if_neg h50]
    simp only [List.length_cons] at h50 ⊢
    omega

theorem reachable_appInv {s : AppState} (h : Reachable s) : appInv s := by
  induction h with
  | init =>
    constructor <;> intro l hl <;> simp [initState] at hl
    subst hl
    simp
  | @step s s' hr hstep ih =>
    cases hstep with
    | load =>
      refine ⟨?_, ih.2⟩
      intro l hl
      unfold loadHistoryFromStorage at hl
      simp only at hl
      cases hst : s.storage with
      | absent => rw [hst] at hl; exact ih.1 l hl
      | records l2 =>
        rw [hst] at hl
        cases hl
        exact ih.2 _ hst
      | otherJson => rw [hst] at hl; cases hl
      | unparseable =>
        rw [hst] at hl
        cases hl
        simp
    | calcSave l e r t h =>
      have hb := saveToHistory_le_50 e r t l (ih.1 l h)
      constructor <;> intro l2 hl2 <;> cases hl2 <;> exact hb
    | calcSaveNoPersist l e r t h =>
      have hb := saveToHistory_le_50 e r t l (ih.1 l h)
      refine ⟨?_, ih.2⟩
      intro l2 hl2
      cases hl2
      exact hb
    | clear =>
      constructor <;> intro l2 hl2 <;> cases hl2 <;> simp
    | clearNoPersist =>
      refine ⟨?_, ih.2⟩
      intro l2 hl2
      cases hl2
      simp

/-- **C6**: every reachable history state (including the one produced by
the startup load) holds at most 50 records, and on overflow `saveToHistory`
inserts the new record at the front and evicts exactly the oldest (last)
record. -/
theorem history_capacity_invariant :
    (∀ s, Reachable s → ∀ l, s.hist = .records l → l.length ≤ 50) ∧
    (∀ (e : String) (r : ℚ) (t : Nat) (l : List HistoryRecord), l.length = 50 →
      saveToHistory e r t l = mkHistoryItem e r t :: l.dropLast) := by
  constructor
  · intro s hr l hl
    exact (reachable_appInv hr).1 l hl
  · intro e r t l hl
    unfold saveToHistory
    rw [if_pos (by simp [hl])]
    cases l with
    | nil => simp at hl
    | cons b ltail => rfl

theorem history_capacity_invariant_witness :
    (([] : List HistoryRecord).length ≤ 50) ∧
    saveToHistory "2" 2 1 (List.replicate 50 (mkHistoryItem "1" 1 0)) =
      mkHistoryItem "2" 2 1 :: (List.replicate 50 (mkHistoryItem "1" 1 0)).dropLast := by
  constructor
  · exact history_capacity_invariant.1 initState Reachable.init [] rfl
  · exact history_capacity_invariant.2 "2" 2 1 _ (by simp)

/-- **C7** (counterexample): a stored value that parses to JSON of the
wrong shape is assigned as-is by `loadHistoryFromStorage`; the store does
not initialize to the empty list in the "malformed" case. -/
theorem malformed_storage_not_reset :
    loadHistoryFromStorage .otherJson (.records []) = .nonRecords ∧
    HistVar.nonRecords ≠ .records [] :=
  ⟨rfl, by decide⟩

/-- **C7** (amended): at startup the store is read once; when the stored
value is absent the (initially empty) store stays empty, and when it is
unparseable the `JSON.parse` failure is swallowed and the store is reset
to the empty list; a malformed-but-parseable value is instead assigned
unvalidated. -/
theorem load_absent_or_unparseable_empty :
    loadHistoryFromStorage .absent (.records []) = .records [] ∧
    ∀ cur, loadHistoryFromStorage .unparseable cur = .records [] :=
  ⟨rfl, fun _ => rfl⟩

/-- **C3**: every expression string containing the substring `/0` (also
inside a larger context such as `/0.5`) evaluates to the error marker,
never to a number. -/
theorem slash_zero_yields_error :
    ∀ s : String, hasSub s.data divPat = true →
      evaluateExpression s = .error ∧ ∀ v, evaluateExpression s ≠ .num v := by
  intro s h
  have he : evaluateExpression s = .error := by
    unfold evaluateExpression
    rw [if_pos h]
  refine ⟨he, fun v hv => ?_⟩
  rw [he] at hv
  exact EvalOut.noConfusion hv

theorem slash_zero_yields_error_witness :
    hasSub ("1/0.5".data) divPat = true ∧ evaluateExpression "1/0.5" = .error :=
  ⟨by decide, (slash_zero_yields_error "1/0.5" (by decide)).1⟩

/-- **C2** (counterexample): `"1/a0.5"` sanitizes to `"1/0.5"`, whose
`/0` substring is not detected — the check runs on the raw string before
sanitization — and generic evaluation returns the number 2. -/
theorem sanitized_slash_zero_not_detected :
    hasSub (sanitizeL "1/a0.5".data) divPat = true ∧
    hasSub "1/a0.5".data divPat = false ∧
    evaluateExpression "1/a0.5" = .num (.fin 2) :=
  ⟨by decide, by decide, by decide⟩

/-- **C2** (amended): for every input string whose raw (pre-sanitization)
form contains the substring `/0`, `evaluateExpression` fails with the
division-by-zero error before generic evaluation is attempted (the check
is the first step of the function). -/
theorem raw_slash_zero_short_circuits :
    ∀ s : String, hasSub s.data divPat = true → evaluateExpression s = .error := by
  intro s h
  unfold evaluateExpression
  rw [if_pos h]

theorem raw_slash_zero_short_circuits_witness :
    hasSub ("40/0".data) divPat = true ∧ evaluateExpression "40/0" = .error :=
  ⟨by decide, raw_slash_zero_short_circuits "40/0" (by decide)⟩

/-- **C4**: `numberToWords` maps 0 to "Zero", -5 to "Negative Five",
100 to "One Hundred", 1020 to "One Thousand, Twenty", 19 to "Nineteen",
21 to "Twenty-One", and 3.05 to "Three Point Zero Five". -/
theorem numberToWords_examples :
    numberToWords 0 = "Zero" ∧ numberToWords (-5) = "Negative Five" ∧
    numberToWords 100 = "One Hundred" ∧
    numberToWords 1020 = "One Thousand, Twenty" ∧
    numberToWords 19 = "Nineteen" ∧ numberToWords 21 = "Twenty-One" ∧
    numberToWords 3.05 = "Three Point Zero Five" := by
  have h305 : (3.05 : ℚ) = mkRat 305 (10 ^ 2) := by
    rw [show (3.05 : ℚ) = Rat.ofScientific 305 true 2 from rfl, Rat.ofScientific_true_def]
    rfl
  rw [h305]
  decide

/-- **C5**: `expressionToWords` replaces operators by their spoken forms
and numeric literals by their word forms, appending " equals " and the
words of the result: `expressionToWords "12+3" 15` is
"Twelve plus Three equals Fifteen". -/
theorem expressionToWords_example :
    expressionToWords "12+3" 15 = "Twelve plus Three equals Fifteen" := by decide

/-- **C8**: when evaluation of a non-empty expression fails (error marker,
`NaN`, or a non-finite value — the evaluator is total, so no exception can
cross the boundary), `calculateResult` replaces the expression with the
literal `"Error"` and leaves the history unchanged. -/
theorem calculateResult_failure_behaviour :
    ∀ (t : Nat) (st : CalcState), st.expr.length ≠ 0 →
      evalFails (evaluateExpression st.expr) = true →
      calculateResult t st = { st with expr := "Error" } := by
  intro t st h hf
  unfold calculateResult
  rw [if_neg h]
  cases hev : evaluateExpression st.expr with
  | error => rfl
  | num v =>
    rw [hev] at hf
    cases v with
    | fin q => simp [evalFails] at hf
    | inf => rfl
    | ninf => rfl
    | nan => rfl

theorem calculateResult_failure_behaviour_witness :
    calculateResult 0 { expr := "2++", history := [] } =
      { expr := "Error", history := [] } :=
  calculateResult_failure_behaviour 0 { expr := "2++", history := [] }
    (by decide) (by decide)

/-- **C9**: `loadFromHistory i` with an in-range index replaces the
current expression with the string form of the stored record's result
(not the stored expression string); an out-of-range index changes
nothing. -/
theorem loadFromHistory_behaviour :
    (∀ (i : Nat) (st : CalcState) (item : HistoryRecord),
      st.history.get? i = some item →
      loadFromHistory i st = { st with expr := ratToString item.result }) ∧
    (∀ (i : Nat) (st : CalcState), st.history.length ≤ i →
      loadFromHistory i st = st) := by
  constructor
  · intro i st item h
    unfold loadFromHistory
    rw [h]
  · intro i st h
    unfold loadFromHistory
    rw [List.get?_eq_none.mpr h]

theorem loadFromHistory_behaviour_witness :
    loadFromHistory 0 { expr := "idle", history := [mkHistoryItem "12+3" 15 0] } =
      { expr := "15", history := [mkHistoryItem "12+3" 15 0] } ∧
    loadFromHistory 1 { expr := "idle", history := [mkHistoryItem "12+3" 15 0] } =
      { expr := "idle", history := [mkHistoryItem "12+3" 15 0] } := by
  constructor
  · have h := loadFromHistory_behaviour.1 0
      { expr := "idle", history := [mkHistoryItem "12+3" 15 0] }
      (mkHistoryItem "12+3" 15 0) rfl
    rw [h]
    decide
  · exact loadFromHistory_behaviour.2 1 _ (by simp)

/-! ## Fractional rendering of small numbers (C10) -/

theorem natDigitsRev_lt_10 : ∀ f n, ∀ d ∈ natDigitsRev f n, d < 10 := by
  intro f
  induction f with
  | zero => intro n d hd; simp [natDigitsRev] at hd
  | succ f ih =>
    intro n d hd
    unfold natDigitsRev at hd
    by_cases h0 : n = 0
    · simp [h0] at hd
    · rw [if_neg h0] at hd
      rcases List.mem_cons.mp hd with h | h
      · subst h; exact Nat.mod_lt _ (by omega)
      · exact ih _ d h

theorem ofLE_natDigitsRev : ∀ f n, n ≤ f → ofLE (natDigitsRev f n) = n := by
  intro f
  induction f with
  | zero => intro n h; interval_cases n; rfl
  | succ f ih =>
    intro n h
    unfold natDigitsRev
    by_cases h0 : n = 0
    · simp [h0, ofLE]
    · rw [if_neg h0]
      unfold ofLE
      rw [ih (n / 10) (by omega)]
      omega

theorem fracDigitsAux_lt_10 : ∀ (f r den : Nat), 0 < den → r < den →
    ∀ d ∈ fracDigitsAux f r den, d < 10 := by
  intro f
  induction f with
  | zero => intro r den _ _ d hd; simp [fracDigitsAux] at hd
  | succ f ih =>
    intro r den hden hr d hd
    unfold fracDigitsAux at hd
    by_cases h0 : r = 0
    · rw [if_pos h0] at hd; simp at hd
    · rw [if_neg h0] at hd
      rcases List.mem_cons.mp hd with h | h
      · subst h
        exact Nat.div_lt_of_lt_mul (by omega)
      · exact ih _ _ hden (Nat.mod_lt _ hden) d h

theorem fracDigitsAux_ne_nil (f r den : Nat) (hf : 0 < f) (hr : r ≠ 0) :
    fracDigitsAux f r den ≠ [] := by
  cases f with
  | zero => omega
  | succ f =>
    unfold fracDigitsAux
    rw [if_neg hr]
    exact List.cons_ne_nil _ _

theorem decimalParts_small (q : ℚ) (hnum : q.num ≠ 0) (hlt : q.num.natAbs < q.den) :
    (decimalParts q).1 = 0 ∧ (decimalParts q).2 ≠ [] ∧ ∀ d ∈ (decimalParts q).2, d < 10 := by
  have hden : 0 < q.den := q.pos
  have habs : q.num.natAbs ≠ 0 := Int.natAbs_ne_zero.mpr hnum
  have hmod : q.num.natAbs % q.den = q.num.natAbs := Nat.mod_eq_of_lt hlt
  refine ⟨?_, ?_, ?_⟩
  · simp only [decimalParts]
    exact Nat.div_eq_of_lt hlt
  · simp only [decimalParts]
    rw [hmod]
    exact fracDigitsAux_ne_nil _ _ _ hden habs
  · intro d hd
    simp only [decimalParts] at hd
    exact fracDigitsAux_lt_10 _ _ _ hden (Nat.mod_lt _ hden) d hd

theorem dropWhile_eq_self_of_head (p : Char → Bool) (l : List Char)
    (h : ∀ c, l.head? = some c → p c = false) : List.dropWhile p l = l := by
  cases l with
  | nil => rfl
  | cons c cs =>
    rw [List.dropWhile_cons, h c rfl]
    simp

theorem trimChars_eq_self (l : List Char)
    (h1 : ∀ c, l.head? = some c → isSpaceC c = false)
    (h2 : ∀ c, l.getLast? = some c → isSpaceC c = false) : trimChars l = l := by
  unfold trimChars
  rw [dropWhile_eq_self_of_head _ _ h1]
  rw [dropWhile_eq_self_of_head _ _
    (fun c hc => h2 c (by rw [← List.head?_reverse]; exact hc))]
  exact List.reverse_reverse l

theorem noTrailSpace_append (a b : List Char) (h : noTrailSpace b = true) :
    noTrailSpace (a ++ b) = true := by
  unfold noTrailSpace at h ⊢
  cases hb : b.getLast? with
  | none => rw [hb] at h; cases h
  | some c =>
    rw [hb] at h
    rw [List.getLast?_append, hb]
    exact h

theorem noTrailSpace_digitWord (d : Nat) (h : d < 10) :
    noTrailSpace (' ' :: digitWordL d) = true := by
  interval_cases d <;> decide

theorem fracWords_noTrail (ds : List Nat) (hne : ds ≠ []) (hlt : ∀ d ∈ ds, d < 10) :
    noTrailSpace (fracWords ds) = true := by
  induction ds with
  | nil => exact absurd rfl hne
  | cons d t ih =>
    unfold fracWords
    rw [List.map_cons, List.flatten_cons]
    by_cases ht : t = []
    · subst ht
      simp only [List.map_nil, List.flatten_nil, List.append_nil]
      exact noTrailSpace_digitWord d (hlt d (List.mem_cons_self d []))
    · exact noTrailSpace_append _ _
        (ih ht (fun x hx => hlt x (List.mem_cons_of_mem d hx)))

theorem noTrailSpace_getLast {l : List Char} (h : noTrailSpace l = true) :
    ∀ c, l.getLast? = some c → isSpaceC c = false := by
  intro c hc
  unfold noTrailSpace at h
  rw [hc] at h
  simpa using h

theorem getLast_append_noTrail (pre frac : List Char) (hf : noTrailSpace frac = true) :
    ∀ c, (pre ++ frac).getLast? = some c → isSpaceC c = false := by
  intro c hc
  rw [List.getLast?_append] at hc
  cases hg : frac.getLast? with
  | none =>
    unfold noTrailSpace at hf
    rw [hg] at hf
    cases hf
  | some c2 =>
    rw [hg] at hc
    simp only [Option.or_some] at hc
    cases hc
    exact noTrailSpace_getLast hf _ hg

theorem trim_sign_zero_point (sgn frac : List Char)
    (hs : sgn = [] ∨ sgn = "Negative ".data) (hf : noTrailSpace frac = true) :
    trimChars (sgn ++ "Zero".data ++ " Point".data ++ frac) =
      sgn ++ ("Zero Point".data ++ frac) := by
  rcases hs with hs | hs <;> subst hs
  · simp only [List.nil_append]
    rw [show "Zero".data ++ " Point".data = "Zero Point".data from by decide]
    apply trimChars_eq_self
    · intro c hc
      rw [List.head?_append] at hc
      rw [show ("Zero Point".data).head? = some 'Z' from by decide] at hc
      simp only [Option.or_some] at hc
      cases hc
      decide
    · exact getLast_append_noTrail _ _ hf
  · rw [show "Negative ".data ++ "Zero".data ++ " Point".data =
      "Negative Zero Point".data from by decide]
    rw [show ("Negative ".data : List Char) ++ ("Zero Point".data ++ frac) =
      "Negative Zero Point".data ++ frac from by rw [← List.append_assoc]; rw [show ("Negative ".data : List Char) ++ "Zero Point".data = "Negative Zero Point".data from by decide]]
    apply trimChars_eq_self
    · intro c hc
      rw [List.head?_append] at hc
      rw [show ("Negative Zero Point".data).head? = some 'N' from by decide] at hc
      simp only [Option.or_some] at hc
      cases hc
      decide
    · exact getLast_append_noTrail _ _ hf

/-- **C10**: for every number with `0 < |q| < 1` whose default `toString`
rendering has no exponent and whose decimal expansion terminates,
`numberToWords` renders the integer part as the word "Zero" followed by
"Point" and one word per fractional digit of the rendering, with
"Negative " prefixed for negative inputs.  The hypotheses carve out
exactly that domain: `q.den ∣ 10 ^ k` (some `k`) says the expansion
terminates — true of every value a binary double can hold — and
`q.den ≤ 10 ^ 6 * q.num.natAbs` says `10⁻⁶ ≤ |q|`, the threshold below
which `toString` switches to exponential notation (e.g. `"1e-7"`, whose
split-at-the-dot reading is integer part `1` with no fractional digits,
rendered "One" — so the sub-`10⁻⁶` region genuinely behaves differently
and is excluded here; see the caveat at `decimalParts`). -/
theorem numberToWords_fractional_small :
    ∀ (k : Nat) (q : ℚ), q.num ≠ 0 → q.num.natAbs < q.den → q.den ∣ 10 ^ k →
      q.den ≤ 10 ^ 6 * q.num.natAbs →
      (decimalParts q).2 ≠ [] ∧
      numberToWords q = ⟨(if q.num < 0 then "Negative ".data else []) ++
        ("Zero Point".data ++ fracWords (decimalParts q).2)⟩ := by
  intro _k q hnum hlt _hdvd _hexp
  obtain ⟨hip, hne, hlt10⟩ := decimalParts_small q hnum hlt
  refine ⟨hne, ?_⟩
  unfold numberToWords
  congr 1
  simp only [numberToWordsL, if_neg hnum, hip, if_pos, reduceIte, if_neg hne]
  have hjoin : joinSep ", ".data ["Zero".data] = "Zero".data := rfl
  rw [hjoin]
  have htz : trimChars ("Zero".data) = "Zero".data := by decide
  rw [htz]
  have hfrac := fracWords_noTrail _ hne hlt10
  by_cases hsgn : q.num < 0
  · rw [if_pos hsgn]
    exact trim_sign_zero_point "Negative ".data _ (Or.inr rfl) hfrac
  · rw [if_neg hsgn]
    exact trim_sign_zero_point [] _ (Or.inl rfl) hfrac

theorem numberToWords_fractional_small_witness :
    numberToWords (mkRat 1 2) = "Zero Point Five" ∧
    numberToWords (mkRat (-1) 2) = "Negative Zero Point Five" := by
  constructor
  · have h := (numberToWords_fractional_small 1 (mkRat 1 2)
      (by decide) (by decide) (by decide) (by decide)).2
    rw [h]
    decide
  · have h := (numberToWords_fractional_small 1 (mkRat (-1) 2)
      (by decide) (by decide) (by decide) (by decide)).2
    rw [h]
    decide

/-! ## Parser round trip (C1) -/

theorem digitChar_isDigit {d : Nat} (h : d < 10) : isDigitC (digitChar d) = true := by
  interval_cases d <;> decide

theorem digitVal_digitChar {d : Nat} (h : d < 10) : digitVal (digitChar d) = d := by
  interval_cases d <;> decide

theorem digitChar_not_special {d : Nat} (h : d < 10) :
    digitChar d ≠ '(' ∧ digitChar d ≠ '-' ∧ digitChar d ≠ '+' := by
  interval_cases d <;> exact ⟨by decide, by decide, by decide⟩

theorem stopE_stopT {r : List Char} (h : stopE r = true) : stopT r = true := by
  cases r with
  | nil => rfl
  | cons c cs =>
    have hc : c = ')' := of_decide_eq_true h
    subst hc
    rfl

theorem stopT_stopF {r : List Char} (h : stopT r = true) : stopF r = true := by
  cases r with
  | nil => rfl
  | cons c cs =>
    unfold stopT at h
    simp only [Bool.or_eq_true, decide_eq_true_eq] at h
    rcases h with (h | h) | h <;> subst h <;> rfl

theorem lexDigits_stop {r : List Char} (h : stopF r = true) : lexDigits r = ([], r) := by
  cases r with
  | nil => rfl
  | cons c cs =>
    unfold stopF at h
    simp only [Bool.or_eq_true, decide_eq_true_eq] at h
    rcases h with (((h | h) | h) | h) | h <;> subst h <;> rfl

theorem stopF_not_dot {c : Char} {cs : List Char} (h : stopF (c :: cs) = true) :
    ¬(c = '.') := by
  unfold stopF at h
  simp only [Bool.or_eq_true, decide_eq_true_eq] at h
  rcases h with (((h | h) | h) | h) | h <;> subst h <;> decide

theorem stopF_not_lparen {c : Char} {cs : List Char} (h : stopF (c :: cs) = true) :
    ¬(c = '(') := by
  unfold stopF at h
  simp only [Bool.or_eq_true, decide_eq_true_eq] at h
  rcases h with (((h | h) | h) | h) | h <;> subst h <;> decide

theorem lexDigits_append : ∀ (ds : List Nat), (∀ d ∈ ds, d < 10) →
    ∀ r, lexDigits r = ([], r) → lexDigits (ds.map digitChar ++ r) = (ds, r) := by
  intro ds
  induction ds with
  | nil => intro _ r hr; simpa using hr
  | cons d t ih =>
    intro hlt r hr
    rw [List.map_cons, List.cons_append]
    have hd10 := hlt d (List.mem_cons_self d t)
    have hrec := ih (fun x hx => hlt x (List.mem_cons_of_mem d hx)) r hr
    simp only [lexDigits, digitChar_isDigit hd10, if_true, hrec,
      digitVal_digitChar hd10]

theorem digitsToNat_reverse : ∀ l : List Nat, digitsToNat l.reverse = ofLE l := by
  intro l
  induction l with
  | nil => rfl
  | cons d t ih =>
    rw [List.reverse_cons]
    unfold digitsToNat at ih ⊢
    rw [List.foldl_append, List.foldl_cons, List.foldl_nil, ih]
    rw [show ofLE (d :: t) = d + 10 * ofLE t from rfl]
    omega

theorem digitsToNat_litIntDigits (n : Nat) : digitsToNat (litIntDigits n) = n := by
  unfold litIntDigits
  by_cases h : n = 0
  · subst h; rfl
  · rw [if_neg h]
    unfold natDigitsCore
    rw [digitsToNat_reverse]
    exact ofLE_natDigitsRev n n (le_refl n)

theorem litIntDigits_lt_10 (n : Nat) : ∀ d ∈ litIntDigits n, d < 10 := by
  intro d hd
  unfold litIntDigits at hd
  by_cases h : n = 0
  · rw [if_pos h] at hd
    simp at hd
    omega
  · rw [if_neg h] at hd
    unfold natDigitsCore at hd
    exact natDigitsRev_lt_10 n n d (List.mem_reverse.mp hd)

theorem litIntDigits_ne_nil (n : Nat) : litIntDigits n ≠ [] := by
  unfold litIntDigits
  by_cases h : n = 0
  · rw [if_pos h]; simp
  · rw [if_neg h]
    unfold natDigitsCore
    simp only [ne_eq, List.reverse_eq_nil_iff]
    cases hn : n with
    | zero => exact absurd hn h
    | succ m =>
      unfold natDigitsRev
      simp

theorem lexNumber_lit (i : Nat) (f : List Nat) (r : List Char)
    (hf : ∀ d ∈ f, d < 10) (hr : stopF r = true) :
    lexNumber (litChars i f ++ r) = some ((i, f), r) := by
  obtain ⟨d, t, hdt⟩ := List.exists_cons_of_ne_nil (litIntDigits_ne_nil i)
  have hlt : ∀ x ∈ d :: t, x < 10 := hdt ▸ litIntDigits_lt_10 i
  have hdig : digitsToNat (d :: t) = i := by
    rw [← hdt]
    exact digitsToNat_litIntDigits i
  unfold litChars
  by_cases hfe : f = []
  · subst hfe
    rw [if_pos rfl, List.append_nil, hdt]
    have h1 : lexDigits ((d :: t).map digitChar ++ r) = (d :: t, r) :=
      lexDigits_append _ hlt r (lexDigits_stop hr)
    cases r with
    | nil =>
      simp only [List.append_nil] at h1 ⊢
      simp only [lexNumber, h1]
      rw [hdig]
    | cons c cs =>
      simp only [lexNumber, h1, if_neg (stopF_not_dot hr)]
      rw [hdig]
  · rw [if_neg hfe, hdt]
    simp only [List.append_assoc, List.cons_append]
    have h2 : lexDigits (f.map digitChar ++ r) = (f, r) :=
      lexDigits_append _ hf r (lexDigits_stop hr)
    have h1 : lexDigits ((d :: t).map digitChar ++ ('.' :: (f.map digitChar ++ r))) =
        (d :: t, '.' :: (f.map digitChar ++ r)) :=
      lexDigits_append _ hlt _ rfl
    simp only [lexNumber, h1, if_pos rfl, h2]
    rw [hdig]
    simp

theorem eloop_exit (f : Nat) (a : AExp) (r : List Char) (h : stopE r = true) :
    parseRun (f + 1) (.eloop a) r = some (a, r) := by
  cases r with
  | nil => rfl
  | cons c cs =>
    have hc : c = ')' := of_decide_eq_true h
    subst hc
    rfl

theorem tloop_exit (f : Nat) (a : AExp) (r : List Char) (h : stopT r = true) :
    parseRun (f + 1) (.tloop a) r = some (a, r) := by
  cases r with
  | nil => rfl
  | cons c cs =>
    unfold stopT at h
    simp only [Bool.or_eq_true, decide_eq_true_eq] at h
    rcases h with (h | h) | h <;> subst h <;> rfl

theorem pp01 (a : AExp) (h : isAddSub a = false) : pp 0 a = pp 1 a := by
  cases a <;> first | rfl | simp [isAddSub] at h

theorem pp12 (a : AExp) (h : isMulDiv a = false) : pp 1 a = pp 2 a := by
  cases a <;> first | rfl | simp [isMulDiv] at h

theorem pp1_paren (a : AExp) (h : isAddSub a = true) :
    pp 1 a = '(' :: pp 0 a ++ [')'] := by
  cases a <;> first | rfl | simp [isAddSub] at h

theorem pp2_paren (a : AExp) (h : (isAddSub a || isMulDiv a) = true) :
    pp 2 a = '(' :: pp 0 a ++ [')'] := by
  cases a <;> first | rfl | simp [isAddSub, isMulDiv] at h

theorem eSpine_not_addsub (a : AExp) : isAddSub (eSpine a).1 = false := by
  induction a with
  | add x y ihx ihy => simp only [eSpine]; exact ihx
  | sub x y ihx ihy => simp only [eSpine]; exact ihx
  | lit i f => rfl
  | neg x ih => rfl
  | mul x y ihx ihy => rfl
  | div x y ihx ihy => rfl

theorem tSpine_not_muldiv (a : AExp) : isMulDiv (tSpine a).1 = false := by
  induction a with
  | mul x y ihx ihy => simp only [tSpine]; exact ihx
  | div x y ihx ihy => simp only [tSpine]; exact ihx
  | lit i f => rfl
  | neg x ih => rfl
  | add x y ihx ihy => rfl
  | sub x y ihx ihy => rfl

theorem eSpine_size (a : AExp) :
    sizeA (eSpine a).1 ≤ sizeA a ∧ ∀ p ∈ (eSpine a).2, sizeA p.2 < sizeA a := by
  induction a with
  | add x y ihx ihy =>
    constructor
    · simp only [eSpine]
      have := ihx.1
      simp only [sizeA]
      omega
    · intro p hp
      simp only [eSpine] at hp
      rcases List.mem_append.mp hp with h | h
      · have := ihx.2 p h
        simp only [sizeA]
        omega
      · simp only [List.mem_singleton] at h
        subst h
        simp only [sizeA]
        omega
  | sub x y ihx ihy =>
    constructor
    · simp only [eSpine]
      have := ihx.1
      simp only [sizeA]
      omega
    · intro p hp
      simp only [eSpine] at hp
      rcases List.mem_append.mp hp with h | h
      · have := ihx.2 p h
        simp only [sizeA]
        omega
      · simp only [List.mem_singleton] at h
        subst h
        simp only [sizeA]
        omega
  | lit i f => exact ⟨le_refl _, by intro p hp; simp [eSpine] at hp⟩
  | neg x ih => exact ⟨le_refl _, by intro p hp; simp [eSpine] at hp⟩
  | mul x y ihx ihy => exact ⟨le_refl _, by intro p hp; simp [eSpine] at hp⟩
  | div x y ihx ihy => exact ⟨le_refl _, by intro p hp; simp [eSpine] at hp⟩

theorem tSpine_size (a : AExp) :
    sizeA (tSpine a).1 ≤ sizeA a ∧ ∀ p ∈ (tSpine a).2, sizeA p.2 < sizeA a := by
  induction a with
  | mul x y ihx ihy =>
    constructor
    · simp only [tSpine]
      have := ihx.1
      simp only [sizeA]
      omega
    · intro p hp
      simp only [tSpine] at hp
      rcases List.mem_append.mp hp with h | h
      · have := ihx.2 p h
        simp only [sizeA]
        omega
      · simp only [List.mem_singleton] at h
        subst h
        simp only [sizeA]
        omega
  | div x y ihx ihy =>
    constructor
    · simp only [tSpine]
      have := ihx.1
      simp only [sizeA]
      omega
    · intro p hp
      simp only [tSpine] at hp
      rcases List.mem_append.mp hp with h | h
      · have := ihx.2 p h
        simp only [sizeA]
        omega
      · simp only [List.mem_singleton] at h
        subst h
        simp only [sizeA]
        omega
  | lit i f => exact ⟨le_refl _, by intro p hp; simp [tSpine] at hp⟩
  | neg x ih => exact ⟨le_refl _, by intro p hp; simp [tSpine] at hp⟩
  | add x y ihx ihy => exact ⟨le_refl _, by intro p hp; simp [tSpine] at hp⟩
  | sub x y ihx ihy => exact ⟨le_refl _, by intro p hp; simp [tSpine] at hp⟩

theorem eSpine_printOK (a : AExp) (h : printOK a = true) :
    printOK (eSpine a).1 = true ∧ ∀ p ∈ (eSpine a).2, printOK p.2 = true := by
  induction a with
  | add x y ihx ihy =>
    simp only [printOK, Bool.and_eq_true] at h
    refine ⟨by simp only [eSpine]; exact (ihx h.1).1, ?_⟩
    intro p hp
    simp only [eSpine] at hp
    rcases List.mem_append.mp hp with hm | hm
    · exact (ihx h.1).2 p hm
    · simp only [List.mem_singleton] at hm
      subst hm
      exact h.2
  | sub x y ihx ihy =>
    simp only [printOK, Bool.and_eq_true] at h
    refine ⟨by simp only [eSpine]; exact (ihx h.1).1, ?_⟩
    intro p hp
    simp only [eSpine] at hp
    rcases List.mem_append.mp hp with hm | hm
    · exact (ihx h.1).2 p hm
    · simp only [List.mem_singleton] at hm
      subst hm
      exact h.2
  | lit i f => exact ⟨h, by intro p hp; simp [eSpine] at hp⟩
  | neg x ih => exact ⟨h, by intro p hp; simp [eSpine] at hp⟩
  | mul x y ihx ihy => exact ⟨h, by intro p hp; simp [eSpine] at hp⟩
  | div x y ihx ihy => exact ⟨h, by intro p hp; simp [eSpine] at hp⟩

theorem tSpine_printOK (a : AExp) (h : printOK a = true) :
    printOK (tSpine a).1 = true ∧ ∀ p ∈ (tSpine a).2, printOK p.2 = true := by
  induction a with
  | mul x y ihx ihy =>
    simp only [printOK, Bool.and_eq_true] at h
    refine ⟨by simp only [tSpine]; exact (ihx h.1).1, ?_⟩
    intro p hp
    simp only [tSpine] at hp
    rcases List.mem_append.mp hp with hm | hm
    · exact (ihx h.1).2 p hm
    · simp only [List.mem_singleton] at hm
      subst hm
      exact h.2
  | div x y ihx ihy =>
    simp only [printOK, Bool.and_eq_true] at h
    refine ⟨by simp only [tSpine]; exact (ihx h.1).1, ?_⟩
    intro p hp
    simp only [tSpine] at hp
    rcases List.mem_append.mp hp with hm | hm
    · exact (ihx h.1).2 p hm
    · simp only [List.mem_singleton] at hm
      subst hm
      exact h.2
  | lit i f => exact ⟨h, by intro p hp; simp [tSpine] at hp⟩
  | neg x ih => exact ⟨h, by intro p hp; simp [tSpine] at hp⟩
  | add x y ihx ihy => exact ⟨h, by intro p hp; simp [tSpine] at hp⟩
  | sub x y ihx ihy => exact ⟨h, by intro p hp; simp [tSpine] at hp⟩

theorem eSpine_pp (a : AExp) : pp 0 a = pp 1 (eSpine a).1 ++ eOpsChars (eSpine a).2 := by
  induction a with
  | add x y ihx ihy =>
    rw [show pp 0 (.add x y) = pp 0 x ++ '+' :: pp 1 y from rfl, ihx]
    simp [eSpine, eOpsChars, eOpChar, List.append_assoc]
  | sub x y ihx ihy =>
    rw [show pp 0 (.sub x y) = pp 0 x ++ '-' :: pp 1 y from rfl, ihx]
    simp [eSpine, eOpsChars, eOpChar, List.append_assoc]
  | lit i f => simp [eSpine, eOpsChars, pp01 (.lit i f) rfl]
  | neg x ih => simp [eSpine, eOpsChars, pp01 (.neg x) rfl]
  | mul x y ihx ihy => simp [eSpine, eOpsChars, pp01 (.mul x y) rfl]
  | div x y ihx ihy => simp [eSpine, eOpsChars, pp01 (.div x y) rfl]

theorem tSpine_pp (a : AExp) : pp 1 a = pp 1 (tSpine a).1 ++ tOpsChars (tSpine a).2 := by
  induction a with
  | mul x y ihx ihy =>
    rw [show pp 1 (.mul x y) = pp 1 x ++ '*' :: pp 2 y from rfl, ihx]
    simp [tSpine, tOpsChars, tOpChar, List.append_assoc]
  | div x y ihx ihy =>
    rw [show pp 1 (.div x y) = pp 1 x ++ '/' :: pp 2 y from rfl, ihx]
    simp [tSpine, tOpsChars, tOpChar, List.append_assoc]
  | lit i f => simp [tSpine, tOpsChars]
  | neg x ih => simp [tSpine, tOpsChars]
  | add x y ihx ihy => simp [tSpine, tOpsChars]
  | sub x y ihx ihy => simp [tSpine, tOpsChars]

theorem eFold_append (h : AExp) (l1 l2 : List (Bool × AExp)) :
    eFold h (l1 ++ l2) = eFold (eFold h l1) l2 := by
  simp [eFold, List.foldl_append]

theorem tFold_append (h : AExp) (l1 l2 : List (Bool × AExp)) :
    tFold h (l1 ++ l2) = tFold (tFold h l1) l2 := by
  simp [tFold, List.foldl_append]

theorem eSpine_fold (a : AExp) : eFold (eSpine a).1 (eSpine a).2 = a := by
  induction a with
  | add x y ihx ihy => simp only [eSpine, eFold_append, ihx]; rfl
  | sub x y ihx ihy => simp only [eSpine, eFold_append, ihx]; rfl
  | lit i f => simp [eSpine, eFold]
  | neg x ih => simp [eSpine, eFold]
  | mul x y ihx ihy => simp [eSpine, eFold]
  | div x y ihx ihy => simp [eSpine, eFold]

theorem tSpine_fold (a : AExp) : tFold (tSpine a).1 (tSpine a).2 = a := by
  induction a with
  | mul x y ihx ihy => simp only [tSpine, tFold_append, ihx]; rfl
  | div x y ihx ihy => simp only [tSpine, tFold_append, ihx]; rfl
  | lit i f => simp [tSpine, tFold]
  | neg x ih => simp [tSpine, tFold]
  | add x y ihx ihy => simp [tSpine, tFold]
  | sub x y ihx ihy => simp [tSpine, tFold]

theorem eSpine_ops_ne_nil (a : AExp) (h : isAddSub a = true) : (eSpine a).2 ≠ [] := by
  cases a <;> simp [isAddSub] at h <;> simp [eSpine]

theorem tSpine_ops_ne_nil (a : AExp) (h : isMulDiv a = true) : (tSpine a).2 ≠ [] := by
  cases a <;> simp [isMulDiv] at h <;> simp [tSpine]

theorem stopT_eops (ops : List (Bool × AExp)) (rest : List Char) (h : stopE rest = true) :
    stopT (eOpsChars ops ++ rest) = true := by
  cases ops with
  | nil => simpa [eOpsChars] using stopE_stopT h
  | cons p l =>
    obtain ⟨o, t⟩ := p
    cases o <;> simp [eOpsChars, eOpChar, stopT]

theorem stopF_tops (ops : List (Bool × AExp)) (rest : List Char) (h : stopT rest = true) :
    stopF (tOpsChars ops ++ rest) = true := by
  cases ops with
  | nil => simpa [tOpsChars] using stopT_stopF h
  | cons p l =>
    obtain ⟨o, t⟩ := p
    cases o <;> simp [tOpsChars, tOpChar, stopF]

theorem eOpsChars_len (o : Bool) (t : AExp) (l : List (Bool × AExp)) :
    (eOpsChars ((o, t) :: l)).length = 1 + (pp 1 t).length + (eOpsChars l).length := by
  have h : eOpsChars ((o, t) :: l) = (eOpChar o :: pp 1 t) ++ eOpsChars l := by
    simp [eOpsChars]
  rw [h]
  simp only [List.length_append, List.length_cons]
  omega

theorem tOpsChars_len (o : Bool) (t : AExp) (l : List (Bool × AExp)) :
    (tOpsChars ((o, t) :: l)).length = 1 + (pp 2 t).length + (tOpsChars l).length := by
  have h : tOpsChars ((o, t) :: l) = (tOpChar o :: pp 2 t) ++ tOpsChars l := by
    simp [tOpsChars]
  rw [h]
  simp only [List.length_append, List.length_cons]
  omega

theorem eloop_ops : ∀ (ops : List (Bool × AExp)),
    (∀ p ∈ ops, TstmtP p.2) →
    ∀ acc rest fuel, stopE rest = true → 4 * (eOpsChars ops).length + 8 ≤ fuel →
    parseRun fuel (.eloop acc) (eOpsChars ops ++ rest) = some (eFold acc ops, rest) := by
  intro ops
  induction ops with
  | nil =>
    intro _ acc rest fuel hstop hfuel
    obtain ⟨f, rfl⟩ : ∃ f, fuel = f + 1 := ⟨fuel - 1, by omega⟩
    simpa [eOpsChars, eFold] using eloop_exit f acc rest hstop
  | cons p l ih =>
    intro hall acc rest fuel hstop hfuel
    obtain ⟨o, t⟩ := p
    obtain ⟨f, rfl⟩ : ∃ f, fuel = f + 1 := ⟨fuel - 1, by omega⟩
    have hlen := eOpsChars_len o t l
    have hT : TstmtP t := hall (o, t) (List.mem_cons_self _ _)
    have hstopT : stopT (eOpsChars l ++ rest) = true := stopT_eops l rest hstop
    have hcons : eOpsChars ((o, t) :: l) ++ rest =
        eOpChar o :: (pp 1 t ++ (eOpsChars l ++ rest)) := by
      simp [eOpsChars, List.append_assoc]
    rw [hcons]
    cases o
    · have hstep : parseRun (f + 1) (.eloop acc)
          (eOpChar false :: (pp 1 t ++ (eOpsChars l ++ rest))) =
          (match parseRun f .term (pp 1 t ++ (eOpsChars l ++ rest)) with
           | some (b, r2) => parseRun f (.eloop (.sub acc b)) r2
           | none => none) := rfl
      rw [hstep, hT (eOpsChars l ++ rest) f hstopT (by omega)]
      show parseRun f (.eloop (.sub acc t)) (eOpsChars l ++ rest) = _
      rw [ih (fun q hq => hall q (List.mem_cons_of_mem _ hq)) (.sub acc t) rest f hstop
        (by omega)]
      rfl
    · have hstep : parseRun (f + 1) (.eloop acc)
          (eOpChar true :: (pp 1 t ++ (eOpsChars l ++ rest))) =
          (match parseRun f .term (pp 1 t ++ (eOpsChars l ++ rest)) with
           | some (b, r2) => parseRun f (.eloop (.add acc b)) r2
           | none => none) := rfl
      rw [hstep, hT (eOpsChars l ++ rest) f hstopT (by omega)]
      show parseRun f (.eloop (.add acc t)) (eOpsChars l ++ rest) = _
      rw [ih (fun q hq => hall q (List.mem_cons_of_mem _ hq)) (.add acc t) rest f hstop
        (by omega)]
      rfl

theorem tloop_ops : ∀ (ops : List (Bool × AExp)),
    (∀ p ∈ ops, FstmtP p.2) →
    ∀ acc rest fuel, stopT rest = true → 4 * (tOpsChars ops).length + 8 ≤ fuel →
    parseRun fuel (.tloop acc) (tOpsChars ops ++ rest) = some (tFold acc ops, rest) := by
  intro ops
  induction ops with
  | nil =>
    intro _ acc rest fuel hstop hfuel
    obtain ⟨f, rfl⟩ : ∃ f, fuel = f + 1 := ⟨fuel - 1, by omega⟩
    simpa [tOpsChars, tFold] using tloop_exit f acc rest hstop
  | cons p l ih =>
    intro hall acc rest fuel hstop hfuel
    obtain ⟨o, t⟩ := p
    obtain ⟨f, rfl⟩ : ∃ f, fuel = f + 1 := ⟨fuel - 1, by omega⟩
    have hlen := tOpsChars_len o t l
    have hF : FstmtP t := hall (o, t) (List.mem_cons_self _ _)
    have hstopF : stopF (tOpsChars l ++ rest) = true := stopF_tops l rest hstop
    have hcons : tOpsChars ((o, t) :: l) ++ rest =
        tOpChar o :: (pp 2 t ++ (tOpsChars l ++ rest)) := by
      simp [tOpsChars, List.append_assoc]
    rw [hcons]
    cases o
    · have hstep : parseRun (f + 1) (.tloop acc)
          (tOpChar false :: (pp 2 t ++ (tOpsChars l ++ rest))) =
          (match parseRun f .factor (pp 2 t ++ (tOpsChars l ++ rest)) with
           | some (b, r2) => parseRun f (.tloop (.div acc b)) r2
           | none => none) := rfl
      rw [hstep, hF (tOpsChars l ++ rest) f hstopF (by omega)]
      show parseRun f (.tloop (.div acc t)) (tOpsChars l ++ rest) = _
      rw [ih (fun q hq => hall q (List.mem_cons_of_mem _ hq)) (.div acc t) rest f hstop
        (by omega)]
      rfl
    · have hstep : parseRun (f + 1) (.tloop acc)
          (tOpChar true :: (pp 2 t ++ (tOpsChars l ++ rest))) =
          (match parseRun f .factor (pp 2 t ++ (tOpsChars l ++ rest)) with
           | some (b, r2) => parseRun f (.tloop (.mul acc b)) r2
           | none => none) := rfl
      rw [hstep, hF (tOpsChars l ++ rest) f hstopF (by omega)]
      show parseRun f (.tloop (.mul acc t)) (tOpsChars l ++ rest) = _
      rw [ih (fun q hq => hall q (List.mem_cons_of_mem _ hq)) (.mul acc t) rest f hstop
        (by omega)]
      rfl

theorem expr_step (f : Nat) (s : List Char) :
    parseRun (f + 1) .expr s =
      (match parseRun f .term s with
       | some (a, r) => parseRun f (.eloop a) r
       | none => none) := rfl

theorem term_step (f : Nat) (s : List Char) :
    parseRun (f + 1) .term s =
      (match parseRun f .factor s with
       | some (a, r) => parseRun f (.tloop a) r
       | none => none) := rfl

theorem factor_pass (f : Nat) (c : Char) (r : List Char)
    (h1 : ¬(c = '-')) (h2 : ¬(c = '+')) :
    parseRun (f + 1) .factor (c :: r) = parseRun f .prim (c :: r) := by
  simp only [parseRun, if_neg h1, if_neg h2]

theorem prim_number (f : Nat) (c : Char) (r : List Char) (h : ¬(c = '(')) :
    parseRun (f + 1) .prim (c :: r) =
      (match lexNumber (c :: r) with
       | some ((i, fr), r2) => some (AExp.lit i fr, r2)
       | none => none) := by
  simp only [parseRun, if_neg h]

theorem prim_paren (f : Nat) (r : List Char) :
    parseRun (f + 1) .prim ('(' :: r) =
      (match parseRun f .expr r with
       | some (a, r2) =>
         (match r2 with
          | c2 :: r3 => if c2 = ')' then some (a, r3) else none
          | [] => none)
       | none => none) := rfl

theorem wrapIf_len_le (b : Bool) (s : List Char) : s.length ≤ (wrapIf b s).length := by
  cases b
  · simp [wrapIf]
  · simp [wrapIf]
    omega

theorem sizeA_pos (a : AExp) : 1 ≤ sizeA a := by
  cases a <;> simp [sizeA]

theorem pp_len_pos (p : Nat) (a : AExp) : 1 ≤ (pp p a).length := by
  cases a with
  | lit i f =>
    show 1 ≤ (litChars i f).length
    unfold litChars
    have hlen : 0 < (litIntDigits i).length :=
      List.length_pos.mpr (litIntDigits_ne_nil i)
    simp only [List.length_append, List.length_map]
    omega
  | neg x =>
    refine le_trans ?_ (wrapIf_len_le _ _)
    simp
  | add x y =>
    refine le_trans ?_ (wrapIf_len_le _ _)
    simp
    omega
  | sub x y =>
    refine le_trans ?_ (wrapIf_len_le _ _)
    simp
    omega
  | mul x y =>
    refine le_trans ?_ (wrapIf_len_le _ _)
    simp
    omega
  | div x y =>
    refine le_trans ?_ (wrapIf_len_le _ _)
    simp
    omega

theorem Estmt_of_T (a : AExp) (hnadd : isAddSub a = false) (hT : TstmtP a) : EstmtP a := by
  intro rest fuel hstop hfuel
  obtain ⟨f, rfl⟩ : ∃ f, fuel = f + 1 := ⟨fuel - 1, by omega⟩
  have hlen : (pp 1 a).length = (pp 0 a).length := by rw [pp01 a hnadd]
  rw [expr_step, pp01 a hnadd]
  rw [hT rest f (stopE_stopT hstop) (by omega)]
  show parseRun f (.eloop a) rest = some (a, rest)
  have hl1 := pp_len_pos 1 a
  obtain ⟨f2, rfl⟩ : ∃ f2, f = f2 + 1 := ⟨f - 1, by omega⟩
  exact eloop_exit f2 a rest hstop

theorem Tstmt_of_F (a : AExp) (hnmd : isMulDiv a = false) (hF : FstmtP a) : TstmtP a := by
  intro rest fuel hstop hfuel
  obtain ⟨f, rfl⟩ : ∃ f, fuel = f + 1 := ⟨fuel - 1, by omega⟩
  have hlen : (pp 2 a).length = (pp 1 a).length := by rw [pp12 a hnmd]
  rw [term_step, pp12 a hnmd]
  rw [hF rest f (stopT_stopF hstop) (by omega)]
  show parseRun f (.tloop a) rest = some (a, rest)
  have hl1 := pp_len_pos 1 a
  obtain ⟨f2, rfl⟩ : ∃ f2, f = f2 + 1 := ⟨f - 1, by omega⟩
  exact tloop_exit f2 a rest hstop

theorem Fstmt_lit (i : Nat) (fr : List Nat) (hok : printOK (.lit i fr) = true) :
    FstmtP (.lit i fr) := by
  intro rest fuel hstop hfuel
  have hfr : ∀ d ∈ fr, d < 10 := by
    simp only [printOK, List.all_eq_true, decide_eq_true_eq] at hok
    exact hok
  obtain ⟨f, rfl⟩ : ∃ f, fuel = f + 1 := ⟨fuel - 1, by omega⟩
  obtain ⟨f2, rfl⟩ : ∃ f2, f = f2 + 1 := ⟨f - 1, by omega⟩
  obtain ⟨d, t, hdt⟩ := List.exists_cons_of_ne_nil (litIntDigits_ne_nil i)
  have hd10 : d < 10 := litIntDigits_lt_10 i d (by rw [hdt]; exact List.mem_cons_self _ _)
  have hcons : litChars i fr ++ rest = digitChar d :: ((t.map digitChar ++
      (if fr = [] then [] else '.' :: fr.map digitChar)) ++ rest) := by
    unfold litChars
    rw [hdt]
    simp [List.append_assoc]
  have hspec := digitChar_not_special hd10
  show parseRun (f2 + 1 + 1) .factor (litChars i fr ++ rest) = some (.lit i fr, rest)
  rw [hcons, factor_pass _ _ _ hspec.2.1 hspec.2.2, prim_number _ _ _ hspec.1]
  rw [← hcons, lexNumber_lit i fr rest hfr hstop]

theorem Fstmt_paren (a : AExp) (hps : (isAddSub a || isMulDiv a) = true) (hE : EstmtP a) :
    FstmtP a := by
  intro rest fuel hstop hfuel
  obtain ⟨f, rfl⟩ : ∃ f, fuel = f + 1 := ⟨fuel - 1, by omega⟩
  obtain ⟨f2, rfl⟩ : ∃ f2, f = f2 + 1 := ⟨f - 1, by omega⟩
  obtain ⟨f3, rfl⟩ : ∃ f3, f2 = f3 + 1 := ⟨f2 - 1, by omega⟩
  have hp := pp2_paren a hps
  have hlen : (pp 2 a).length = (pp 0 a).length + 2 := by
    rw [hp]
    simp
  have hcons : pp 2 a ++ rest = '(' :: (pp 0 a ++ (')' :: rest)) := by
    rw [hp]
    simp [List.append_assoc]
  rw [hcons, factor_pass _ _ _ (by decide) (by decide), prim_paren]
  rw [hE (')' :: rest) (f3 + 1) rfl (by omega)]
  show (if ')' = ')' then some (a, rest) else none) = some (a, rest)
  rw [if_pos rfl]

theorem Tstmt_spine (a : AExp) (hmd : isMulDiv a = true)
    (hHead : FstmtP (tSpine a).1) (hOps : ∀ p ∈ (tSpine a).2, FstmtP p.2) : TstmtP a := by
  intro rest fuel hstop hfuel
  obtain ⟨f, rfl⟩ : ∃ f, fuel = f + 1 := ⟨fuel - 1, by omega⟩
  have hpp := tSpine_pp a
  have hpp2 := pp12 (tSpine a).1 (tSpine_not_muldiv a)
  have hlen : (pp 1 a).length =
      (pp 2 (tSpine a).1).length + (tOpsChars (tSpine a).2).length := by
    rw [hpp, hpp2, List.length_append]
  obtain ⟨p0, l0, hpl⟩ := List.exists_cons_of_ne_nil (tSpine_ops_ne_nil a hmd)
  have hops_len : 1 ≤ (tOpsChars (tSpine a).2).length := by
    rw [hpl]
    obtain ⟨o, t⟩ := p0
    rw [tOpsChars_len]
    omega
  have hhl := pp_len_pos 2 (tSpine a).1
  have hX : pp 1 a ++ rest = pp 2 (tSpine a).1 ++ (tOpsChars (tSpine a).2 ++ rest) := by
    rw [hpp, hpp2, List.append_assoc]
  rw [hX, term_step]
  rw [hHead (tOpsChars (tSpine a).2 ++ rest) f (stopF_tops _ _ hstop) (by omega)]
  show parseRun f (.tloop (tSpine a).1) (tOpsChars (tSpine a).2 ++ rest) = _
  rw [tloop_ops _ hOps _ rest f hstop (by omega), tSpine_fold]

theorem Estmt_spine (a : AExp) (hadd : isAddSub a = true)
    (hHead : TstmtP (eSpine a).1) (hOps : ∀ p ∈ (eSpine a).2, TstmtP p.2) : EstmtP a := by
  intro rest fuel hstop hfuel
  obtain ⟨f, rfl⟩ : ∃ f, fuel = f + 1 := ⟨fuel - 1, by omega⟩
  have hpp := eSpine_pp a
  have hlen : (pp 0 a).length =
      (pp 1 (eSpine a).1).length + (eOpsChars (eSpine a).2).length := by
    rw [hpp, List.length_append]
  obtain ⟨p0, l0, hpl⟩ := List.exists_cons_of_ne_nil (eSpine_ops_ne_nil a hadd)
  have hops_len : 1 ≤ (eOpsChars (eSpine a).2).length := by
    rw [hpl]
    obtain ⟨o, t⟩ := p0
    rw [eOpsChars_len]
    omega
  have hhl := pp_len_pos 1 (eSpine a).1
  have hX : pp 0 a ++ rest = pp 1 (eSpine a).1 ++ (eOpsChars (eSpine a).2 ++ rest) := by
    rw [hpp, List.append_assoc]
  rw [hX, expr_step]
  rw [hHead (eOpsChars (eSpine a).2 ++ rest) f (stopT_eops _ _ hstop) (by omega)]
  show parseRun f (.eloop (eSpine a).1) (eOpsChars (eSpine a).2 ++ rest) = _
  rw [eloop_ops _ hOps _ rest f hstop (by omega), eSpine_fold]

theorem eSpine_head_lt (a : AExp) (h : isAddSub a = true) :
    sizeA (eSpine a).1 < sizeA a := by
  cases a with
  | add x y =>
    have := (eSpine_size x).1
    simp only [eSpine, sizeA]
    omega
  | sub x y =>
    have := (eSpine_size x).1
    simp only [eSpine, sizeA]
    omega
  | lit i f => simp [isAddSub] at h
  | neg x => simp [isAddSub] at h
  | mul x y => simp [isAddSub] at h
  | div x y => simp [isAddSub] at h

theorem tSpine_head_lt (a : AExp) (h : isMulDiv a = true) :
    sizeA (tSpine a).1 < sizeA a := by
  cases a with
  | mul x y =>
    have := (tSpine_size x).1
    simp only [tSpine, sizeA]
    omega
  | div x y =>
    have := (tSpine_size x).1
    simp only [tSpine, sizeA]
    omega
  | lit i f => simp [isMulDiv] at h
  | neg x => simp [isMulDiv] at h
  | add x y => simp [isMulDiv] at h
  | sub x y => simp [isMulDiv] at h

theorem rt_main : ∀ (n : Nat) (a : AExp), sizeA a ≤ n → printOK a = true →
    EstmtP a ∧ TstmtP a ∧ FstmtP a := by
  intro n
  induction n with
  | zero =>
    intro a ha _
    have := sizeA_pos a
    omega
  | succ n ih =>
    intro a ha hok
    cases a with
    | lit i fr =>
      have hF := Fstmt_lit i fr hok
      have hT := Tstmt_of_F (.lit i fr) rfl hF
      have hE := Estmt_of_T (.lit i fr) rfl hT
      exact ⟨hE, hT, hF⟩
    | neg x => simp [printOK] at hok
    | mul x y =>
      have hHeadF : FstmtP (tSpine (.mul x y)).1 := by
        refine (ih _ ?_ (tSpine_printOK _ hok).1).2.2
        have := tSpine_head_lt (.mul x y) rfl
        omega
      have hOpsF : ∀ p ∈ (tSpine (.mul x y)).2, FstmtP p.2 := by
        intro p hp
        refine (ih _ ?_ ((tSpine_printOK _ hok).2 p hp)).2.2
        have := (tSpine_size (.mul x y)).2 p hp
        omega
      have hT := Tstmt_spine (.mul x y) rfl hHeadF hOpsF
      have hE := Estmt_of_T (.mul x y) rfl hT
      have hF := Fstmt_paren (.mul x y) rfl hE
      exact ⟨hE, hT, hF⟩
    | div x y =>
      have hHeadF : FstmtP (tSpine (.div x y)).1 := by
        refine (ih _ ?_ (tSpine_printOK _ hok).1).2.2
        have := tSpine_head_lt (.div x y) rfl
        omega
      have hOpsF : ∀ p ∈ (tSpine (.div x y)).2, FstmtP p.2 := by
        intro p hp
        refine (ih _ ?_ ((tSpine_printOK _ hok).2 p hp)).2.2
        have := (tSpine_size (.div x y)).2 p hp
        omega
      have hT := Tstmt_spine (.div x y) rfl hHeadF hOpsF
      have hE := Estmt_of_T (.div x y) rfl hT
      have hF := Fstmt_paren (.div x y) rfl hE
      exact ⟨hE, hT, hF⟩
    | add x y =>
      have hHeadT : TstmtP (eSpine (.add x y)).1 := by
        refine (ih _ ?_ (eSpine_printOK _ hok).1).2.1
        have := eSpine_head_lt (.add x y) rfl
        omega
      have hOpsT : ∀ p ∈ (eSpine (.add x y)).2, TstmtP p.2 := by
        intro p hp
        refine (ih _ ?_ ((eSpine_printOK _ hok).2 p hp)).2.1
        have := (eSpine_size (.add x y)).2 p hp
        omega
      have hE := Estmt_spine (.add x y) rfl hHeadT hOpsT
      have hF := Fstmt_paren (.add x y) rfl hE
      have hT := Tstmt_of_F (.add x y) rfl hF
      exact ⟨hE, hT, hF⟩
    | sub x y =>
      have hHeadT : TstmtP (eSpine (.sub x y)).1 := by
        refine (ih _ ?_ (eSpine_printOK _ hok).1).2.1
        have := eSpine_head_lt (.sub x y) rfl
        omega
      have hOpsT : ∀ p ∈ (eSpine (.sub x y)).2, TstmtP p.2 := by
        intro p hp
        refine (ih _ ?_ ((eSpine_printOK _ hok).2 p hp)).2.1
        have := (eSpine_size (.sub x y)).2 p hp
        omega
      have hE := Estmt_spine (.sub x y) rfl hHeadT hOpsT
      have hF := Fstmt_paren (.sub x y) rfl hE
      have hT := Tstmt_of_F (.sub x y) rfl hF
      exact ⟨hE, hT, hF⟩

theorem jsParse_pp (a : AExp) (hok : printOK a = true) : jsParse (pp 0 a) = some a := by
  unfold jsParse
  have h := (rt_main (sizeA a) a (le_refl _) hok).1 [] (4 * (pp 0 a).length + 8) rfl
    (le_refl _)
  rw [List.append_nil] at h
  rw [h]

theorem mem_wrapIf {c : Char} {b : Bool} {s : List Char} (h : c ∈ wrapIf b s) :
    c = '(' ∨ c = ')' ∨ c ∈ s := by
  cases b
  · simp only [wrapIf, if_neg Bool.false_ne_true] at h
    exact Or.inr (Or.inr h)
  · simp only [wrapIf, if_pos rfl] at h
    rcases List.mem_cons.mp h with h | h
    · exact Or.inl h
    · rcases List.mem_append.mp h with h | h
      · exact Or.inr (Or.inr h)
      · simp only [List.mem_singleton] at h
        exact Or.inr (Or.inl h)

theorem litChars_allowed (i : Nat) (f : List Nat) (hf : ∀ d ∈ f, d < 10) :
    ∀ c ∈ litChars i f, isAllowedChar c = true := by
  intro c hc
  unfold litChars at hc
  rcases List.mem_append.mp hc with h | h
  · obtain ⟨d, hd, rfl⟩ := List.mem_map.mp h
    have := litIntDigits_lt_10 i d hd
    simp [isAllowedChar, digitChar_isDigit this]
  · by_cases hfe : f = []
    · simp [hfe] at h
    · rw [if_neg hfe] at h
      rcases List.mem_cons.mp h with h | h
      · subst h
        decide
      · obtain ⟨d, hd, rfl⟩ := List.mem_map.mp h
        have := hf d hd
        simp [isAllowedChar, digitChar_isDigit this]

theorem pp_allowed : ∀ (a : AExp) (p : Nat), printOK a = true →
    ∀ c ∈ pp p a, isAllowedChar c = true := by
  intro a
  induction a with
  | lit i fr =>
    intro p hok c hc
    refine litChars_allowed i fr ?_ c hc
    simpa only [printOK, List.all_eq_true, decide_eq_true_eq] using hok
  | neg x ih =>
    intro p hok
    simp [printOK] at hok
  | add x y ihx ihy =>
    intro p hok c hc
    simp only [printOK, Bool.and_eq_true] at hok
    rcases mem_wrapIf hc with h | h | h
    · subst h; decide
    · subst h; decide
    · rcases List.mem_append.mp h with h | h
      · exact ihx 0 hok.1 c h
      · rcases List.mem_cons.mp h with h | h
        · subst h; decide
        · exact ihy 1 hok.2 c h
  | sub x y ihx ihy =>
    intro p hok c hc
    simp only [printOK, Bool.and_eq_true] at hok
    rcases mem_wrapIf hc with h | h | h
    · subst h; decide
    · subst h; decide
    · rcases List.mem_append.mp h with h | h
      · exact ihx 0 hok.1 c h
      · rcases List.mem_cons.mp h with h | h
        · subst h; decide
        · exact ihy 1 hok.2 c h
  | mul x y ihx ihy =>
    intro p hok c hc
    simp only [printOK, Bool.and_eq_true] at hok
    rcases mem_wrapIf hc with h | h | h
    · subst h; decide
    · subst h; decide
    · rcases List.mem_append.mp h with h | h
      · exact ihx 1 hok.1 c h
      · rcases List.mem_cons.mp h with h | h
        · subst h; decide
        · exact ihy 2 hok.2 c h
  | div x y ihx ihy =>
    intro p hok c hc
    simp only [printOK, Bool.and_eq_true] at hok
    rcases mem_wrapIf hc with h | h | h
    · subst h; decide
    · subst h; decide
    · rcases List.mem_append.mp h with h | h
      · exact ihx 1 hok.1 c h
      · rcases List.mem_cons.mp h with h | h
        · subst h; decide
        · exact ihy 2 hok.2 c h

theorem sanitize_pp (a : AExp) (hok : printOK a = true) :
    sanitizeL (pp 0 a) = pp 0 a := by
  unfold sanitizeL
  exact List.filter_eq_self.mpr (pp_allowed a 0 hok)

theorem sval_aeval : ∀ (a : AExp) (v : ℚ), sval a = some v → aeval a = .fin v := by
  intro a
  induction a with
  | lit i f =>
    intro v hv
    simp only [sval, Option.some_inj] at hv
    simp [aeval, hv]
  | neg x ih =>
    intro v hv
    simp only [sval, Option.map_eq_some'] at hv
    obtain ⟨w, hw, rfl⟩ := hv
    simp [aeval, ih w hw, jsNeg]
  | add x y ihx ihy =>
    intro v hv
    rw [show sval (.add x y) = (sval x).bind (fun xv => (sval y).bind
      (fun yv => some (qadd xv yv))) from rfl] at hv
    simp only [Option.bind_eq_some, Option.some.injEq] at hv
    obtain ⟨xv, hx, yv, hy, rfl⟩ := hv
    simp [aeval, ihx xv hx, ihy yv hy, jsAdd]
  | sub x y ihx ihy =>
    intro v hv
    rw [show sval (.sub x y) = (sval x).bind (fun xv => (sval y).bind
      (fun yv => some (qsub xv yv))) from rfl] at hv
    simp only [Option.bind_eq_some, Option.some.injEq] at hv
    obtain ⟨xv, hx, yv, hy, rfl⟩ := hv
    simp [aeval, ihx xv hx, ihy yv hy, jsSub]
  | mul x y ihx ihy =>
    intro v hv
    rw [show sval (.mul x y) = (sval x).bind (fun xv => (sval y).bind
      (fun yv => some (qmul xv yv))) from rfl] at hv
    simp only [Option.bind_eq_some, Option.some.injEq] at hv
    obtain ⟨xv, hx, yv, hy, rfl⟩ := hv
    simp [aeval, ihx xv hx, ihy yv hy, jsMul]
  | div x y ihx ihy =>
    intro v hv
    rw [show sval (.div x y) = (sval x).bind (fun xv => (sval y).bind
      (fun yv => if yv.num = 0 then none else some (qdiv xv yv))) from rfl] at hv
    simp only [Option.bind_eq_some] at hv
    obtain ⟨xv, hx, yv, hy, hrest⟩ := hv
    by_cases h0 : yv.num = 0
    · rw [if_pos h0] at hrest
      exact absurd hrest (by simp)
    · rw [if_neg h0] at hrest
      simp only [Option.some.injEq] at hrest
      subst hrest
      simp only [aeval, ihx xv hx, ihy yv hy, jsDiv, if_neg h0]

/-- **C1** (counterexample): `"8/0.5"` is well formed (the rendering of
dividing 8 by 0.5), with standard-precedence value 16, yet
`evaluateExpression` returns the error marker because of the `/0`
substring; and `"0.00000000001"` is a well-formed literal whose standard
value `10⁻¹¹` is nonzero, yet `evaluateExpression` returns 0 because
results are rounded to 10 decimal places. -/
theorem well_formed_but_not_standard_value :
    printOK (AExp.div (.lit 8 []) (.lit 0 [5])) = true ∧
    pp 0 (AExp.div (.lit 8 []) (.lit 0 [5])) = "8/0.5".data ∧
    sval (AExp.div (.lit 8 []) (.lit 0 [5])) = some 16 ∧
    evaluateExpression "8/0.5" = .error ∧
    printOK (AExp.lit 0 [0, 0, 0, 0, 0, 0, 0, 0, 0, 0, 1]) = true ∧
    pp 0 (AExp.lit 0 [0, 0, 0, 0, 0, 0, 0, 0, 0, 0, 1]) = "0.00000000001".data ∧
    sval (AExp.lit 0 [0, 0, 0, 0, 0, 0, 0, 0, 0, 0, 1]) = some (Rat.divInt 1 (10 ^ 11)) ∧
    Rat.divInt 1 (10 ^ 11) ≠ 0 ∧
    evaluateExpression "0.00000000001" = .num (.fin 0) := by
  refine ⟨by decide, by decide, by decide, by decide, by decide, by decide, by decide,
    by decide, by decide⟩

/-- **C1** (amended): for every well-formed expression — the
precedence-respecting rendering `pp 0 a` of an expression tree over
decimal literals — that does not contain the substring `/0` and whose
standard evaluation has a value `v` (no division by zero),
`evaluateExpression` returns `v` rounded to 10 decimal places; in
particular `2+3*4` evaluates to 14 and `(2+3)*4` to 20. -/
theorem evaluateExpression_standard_precedence :
    ∀ (a : AExp) (v : ℚ), printOK a = true → sval a = some v →
      hasSub (pp 0 a) divPat = false →
      evaluateExpression ⟨pp 0 a⟩ = .num (.fin (round10Q v)) := by
  intro a v hok hs hnosub
  unfold evaluateExpression
  have hdata : (⟨pp 0 a⟩ : String).data = pp 0 a := rfl
  rw [hdata, hnosub]
  simp only [Bool.false_eq_true, if_false]
  rw [sanitize_pp a hok, jsParse_pp a hok]
  show EvalOut.num (round10JSV (aeval a)) = _
  rw [sval_aeval a v hs]
  rfl

theorem evaluateExpression_standard_precedence_witness :
    evaluateExpression "2+3*4" = .num (.fin 14) ∧
    evaluateExpression "(2+3)*4" = .num (.fin 20) := by
  constructor
  · have h := evaluateExpression_standard_precedence
      (.add (.lit 2 []) (.mul (.lit 3 []) (.lit 4 []))) 14
      (by decide) (by decide) (by decide)
    rw [show (⟨pp 0 (AExp.add (.lit 2 []) (.mul (.lit 3 []) (.lit 4 [])))⟩ : String) =
      "2+3*4" from by decide] at h
    rw [h]
    decide
  · have h := evaluateExpression_standard_precedence
      (.mul (.add (.lit 2 []) (.lit 3 [])) (.lit 4 [])) 20
      (by decide) (by decide) (by decide)
    rw [show (⟨pp 0 (AExp.mul (.add (.lit 2 []) (.lit 3 [])) (.lit 4 []))⟩ : String) =
      "(2+3)*4" from by decide] at h
    rw [h]
    decide
